import Mathlib

/-!
Verification development for the fantasy_streams repository.

The definitions below are a shallow embedding of the lineup-assignment and
projection code of the repository:

* `get_optimal_lineup` and its three passes embed `src/app.py`,
  function `get_optimal_lineup` (lines 237-333).
* `dailyRoster` embeds the simulated-move roster overlay of
  `src/app.py` (`get_matchup_stats` lines 841-852 and
  `_calculate_unused_spots` lines 425-446, which share this logic).
* `unusedSpotsDay` embeds the per-day body of `_calculate_unused_spots`
  (`src/app.py` lines 441-477).
* `fixLiveStats` / `rowFinalize` embed the goalie ratio recomputation of
  `get_matchup_stats` (`src/app.py` lines 804-823 and 904-918).
* `find_optimal_lineup` / `solve_skaters` embed
  `src/server/optimization_logic.py`.

Python values are modelled as follows: player dicts become records over the
fields the embedded code reads (`player_id`, `total_rank`, the
comma-separated eligible-position string already split and stripped into a
`List String`, and the game-date list with ISO dates as naturals);
floats become `ℚ`; a missing `total_rank` becomes `Option.none`;
Python's stable ascending `sorted` becomes `List.insertionSort`;
dicts keyed by position become association lists or total functions with
`[]` default, with every access guarded exactly where the source guards it.
-/

namespace FantasyStreams

/-- A rostered player as read by `get_optimal_lineup` (src/app.py):
`player_id`, optional `total_rank` (None when the player has no rank data),
the eligible-position string split on `','` and stripped into tokens, and
the dates (`game_dates_this_week`) on which the player's team plays. -/
structure Player where
  player_id : Nat
  total_rank : Option ℚ
  positions : List String
  gameDates : List Nat
deriving DecidableEq, Repr

/-- A player after the entry loop of `get_optimal_lineup` (lines 242-247):
the copy whose `total_rank` has been defaulted to the sentinel 60. -/
structure RPlayer where
  player_id : Nat
  total_rank : ℚ
  positions : List String
deriving DecidableEq, Repr

/-- `lineup_settings`: the position-to-capacity dict, as an association list. -/
abbrev Settings := List (String × Nat)

/-- `lineup_settings.get(pos, 0)`. -/
def capOf (s : Settings) (pos : String) : Nat := (s.lookup pos).getD 0

/-- `pos in lineup` (the lineup dict has exactly the keys of `lineup_settings`). -/
def posIn (s : Settings) (pos : String) : Bool := (s.lookup pos).isSome

/-- Lines 243-247: `player_copy = p.copy()`; if `total_rank` is `None`
set it to the sentinel `60`. -/
def processPlayer (p : Player) : RPlayer :=
  ⟨p.player_id, p.total_rank.getD 60, p.positions⟩

/-- Python's `sorted(..., key=lambda p: p['total_rank'])`: a stable ascending
sort by `total_rank` (insertion sort is stable, like Python's sort). -/
def sortByRank (l : List RPlayer) : List RPlayer :=
  l.insertionSort (fun a b => a.total_rank ≤ b.total_rank)

/-- The mutable assignment state: the lineup dict (total function, `[]` for
absent keys; every access is guarded by `posIn` exactly as the source guards
with `pos in lineup`) and the `assigned_player_ids` set. -/
structure AState where
  assigned : String → List RPlayer
  ids : List Nat

/-- `assign_player` (lines 261-265): append to the slot list, record the id. -/
def assignP (st : AState) (p : RPlayer) (pos : String) : AState :=
  ⟨fun q => if q = pos then st.assigned pos ++ [p] else st.assigned q,
   p.player_id :: st.ids⟩

/-- One iteration of pass 1 (lines 277-281): a single-position player is
assigned to its position if that position is a lineup key with capacity
remaining. -/
def pass1Step (s : Settings) (st : AState) (p : RPlayer) : AState :=
  match p.positions with
  | [pos] =>
      if posIn s pos ∧ (st.assigned pos).length < capOf s pos then
        assignP st p pos
      else st
  | _ => st

/-- Pass 1 (lines 272-281): players with exactly one eligible position,
in rank order. -/
def pass1 (s : Settings) (pool : List RPlayer) (st : AState) : AState :=
  (sortByRank (pool.filter (fun p => p.positions.length == 1))).foldl
    (pass1Step s) st

/-- The scarcity count of a slot for `player` (lines 298-301): the number of
other pool players, not yet assigned, also eligible for `slot`. -/
def scarcity (st : AState) (pool : List RPlayer) (player : RPlayer)
    (slot : String) : Nat :=
  (pool.filter (fun other =>
    other ≠ player ∧ other.player_id ∉ st.ids ∧ slot ∈ other.positions)).length

/-- `min(slot_scarcity, key=slot_scarcity.get)`: the first element of the
list attaining the minimal value of `f` (Python's `min` keeps the first of
equal candidates). -/
def argminFirst (f : String → Nat) : List String → Option String
  | [] => none
  | x :: xs => some (xs.foldl (fun b y => if f y < f b then y else b) x)

/-- One iteration of pass 2 (lines 288-306): `available_slots_for_player` is
the filter below; an empty list is the `continue` branch, otherwise the
player is assigned to the minimum-scarcity available slot. -/
def pass2Step (s : Settings) (pool : List RPlayer) (st : AState)
    (player : RPlayer) : AState :=
  match argminFirst (scarcity st pool player)
      (player.positions.filter
        (fun pos => posIn s pos ∧ (st.assigned pos).length < capOf s pos)) with
  | none => st
  | some best => assignP st player best

/-- Pass 2 (lines 286-306): the remaining pool in rank order; the scarcity
counts are computed against the whole (fixed) pass-2 pool. -/
def pass2 (s : Settings) (pool : List RPlayer) (st : AState) : AState :=
  pool.foldl (pass2Step s pool) st

/-- `max(lineup[pos], key=lambda p: p['total_rank'])`: the first element of
maximal `total_rank` (Python's `max` keeps the first of equal candidates). -/
def worstStarter : List RPlayer → Option RPlayer
  | [] => none
  | x :: xs =>
      some (xs.foldl (fun b y => if y.total_rank > b.total_rank then y else b) x)

/-- The rank of the worst starter of a slot (0 for an empty slot; pass 3
only reads it behind a non-emptiness guard). -/
def worstRank (l : List RPlayer) : ℚ :=
  match worstStarter l with
  | some w => w.total_rank
  | none => 0

/-- `lineup[q2].append(x)` on the lineup dict. -/
def appendAt (lineup : String → List RPlayer) (q2 : String) (x : RPlayer) :
    String → List RPlayer :=
  fun q' => if q' = q2 then lineup q2 ++ [x] else lineup q'

/-- Lines 322-323: `lineup[pos].remove(worst_starter_in_pos)` followed by
`lineup[pos].append(benched_player)`. -/
def swapAt (lineup : String → List RPlayer) (pos : String) (w b : RPlayer) :
    String → List RPlayer :=
  fun q => if q = pos then (lineup pos).erase w ++ [b] else lineup q

/-- Lines 325-330: the evicted starter is re-attempted into the first of its
eligible positions that is a lineup key with open capacity. -/
def reSlot (s : Settings) (lineup : String → List RPlayer) (w : RPlayer) :
    String → List RPlayer :=
  match w.positions.find?
      (fun q => posIn s q && decide ((lineup q).length < capOf s q)) with
  | some q => appendAt lineup q w
  | none => lineup

/-- One iteration of pass 3 (lines 313-331): find the first eligible position
of the benched player whose slot is a non-empty lineup key with a strictly
worse worst starter; evict that starter, insert the benched player, and try
to re-slot the evicted starter. -/
def pass3Step (s : Settings) (lineup : String → List RPlayer) (b : RPlayer) :
    String → List RPlayer :=
  match b.positions.find?
      (fun pos => posIn s pos && !(lineup pos).isEmpty
        && decide (b.total_rank < worstRank (lineup pos))) with
  | none => lineup
  | some pos =>
      match worstStarter (lineup pos) with
      | none => lineup
      | some w => reSlot s (swapAt lineup pos w b) w

/-- Pass 3 (lines 311-331): the benched pool in rank order. -/
def pass3 (s : Settings) (benched : List RPlayer)
    (lineup : String → List RPlayer) : String → List RPlayer :=
  benched.foldl (pass3Step s) lineup

/-- Lines 242-252: copy, substitute the sentinel, sort ascending by rank. -/
def rankedOf (players : List Player) : List RPlayer :=
  sortByRank (players.map processPlayer)

/-- The state after pass 1. -/
def stage1 (players : List Player) (s : Settings) : AState :=
  pass1 s (rankedOf players) ⟨fun _ => [], []⟩

/-- Line 284: the pool filtered by `assigned_player_ids`, then re-sorted by
rank at the start of pass 2 (line 287). -/
def pool1 (players : List Player) (s : Settings) : List RPlayer :=
  sortByRank ((rankedOf players).filter
    (fun p => p.player_id ∉ (stage1 players s).ids))

/-- The state after pass 2. -/
def stage2 (players : List Player) (s : Settings) : AState :=
  pass2 s (pool1 players s) (stage1 players s)

/-- Line 309: the benched pool entering pass 3. -/
def pool2 (players : List Player) (s : Settings) : List RPlayer :=
  (pool1 players s).filter (fun p => p.player_id ∉ (stage2 players s).ids)

/-- `get_optimal_lineup` (src/app.py lines 237-333): the returned lineup
dict, as a total function from position codes to assigned players. -/
def get_optimal_lineup (players : List Player) (s : Settings) :
    String → List RPlayer :=
  pass3 s (pool2 players s) (stage2 players s).assigned

/-! ### Simulated-move roster overlay (src/app.py lines 425-446 / 841-858) -/

/-- A `SimulatedMove`: effective ISO date (ordinals model the lexicographic
order of ISO date strings), the dropped player, and the added player. -/
structure SimMove where
  date : Nat
  dropped : Player
  added : Player
deriving DecidableEq, Repr

/-- Lines 426-439 (and identically 842-852): build the day's roster from the
base roster and the simulated moves.  A move with effective date `≤ day`
removes its dropped player's id from the base roster and appends its added
player. -/
def dailyRoster (active : List Player) (moves : List SimMove) (day : Nat) :
    List Player :=
  let droppedIdsToday :=
    (moves.filter (fun m => m.date ≤ day)).map (fun m => m.dropped.player_id)
  active.filter (fun p => p.player_id ∉ droppedIdsToday)
    ++ (moves.filter (fun m => m.date ≤ day)).map (fun m => m.added)

/-- Lines 441-446 / 854-858: restrict the day's roster to players whose team
plays on `day`. -/
def playersToday (active : List Player) (moves : List SimMove) (day : Nat) :
    List Player :=
  (dailyRoster active moves day).filter (fun p => day ∈ p.gameDates)

/-! ### Unused-spot analyzer (src/app.py lines 409-477) -/

/-- `position_order = ['C', 'LW', 'RW', 'D', 'G']` (line 418). -/
def positionOrder : List String := ["C", "LW", "RW", "D", "G"]

/-- The value displayed for one position of one day: the `'-'` placeholder
for past days, a plain open count, or a flagged (asterisked) count. -/
inductive SlotVal where
  | dash : SlotVal
  | num : Int → SlotVal
  | starred : Int → SlotVal
deriving DecidableEq, Repr

/-- `int(str(current_val).replace('*',''))` (line 468): the numeric content
of a slot value.  The `dash` branch is unreachable in the source (the
asterisk loop only reads values on non-past days, where no `'-'` occurs). -/
def numValOf : SlotVal → Int
  | .dash => 0
  | .num n => n
  | .starred n => n

/-- Lines 450-453: the initial `open_slots` dict over `position_order`:
all `'-'` for a past day, otherwise capacity minus filled count. -/
def baseSlots (today day : Nat) (s : Settings)
    (lineup : String → List RPlayer) : List (String × SlotVal) :=
  if day < today then positionOrder.map (fun pos => (pos, SlotVal.dash))
  else positionOrder.map (fun pos =>
    (pos, SlotVal.num ((capOf s pos : Int) - (lineup pos).length)))

/-- Lines 461-469: some starter assigned to `pos` is eligible for a
position whose current numeric open count (asterisk stripped) is
positive. -/
def starCond (lineup : String → List RPlayer)
    (slots : List (String × SlotVal)) (pos : String) : Bool :=
  (lineup pos).any (fun player => player.positions.any (fun q =>
    match slots.lookup q with
    | some v => numValOf v > 0
    | none => false))

/-- One iteration of the asterisk loop (lines 456-473) for key `pos` of the
lineup dict: if the position is in `position_order` and its open count is
the plain number 0, and some starter assigned there is eligible for a
position whose numeric open count is positive, replace the 0 with a flagged
0 (`"0*"`). -/
def flagStep (lineup : String → List RPlayer)
    (slots : List (String × SlotVal)) (pos : String) :
    List (String × SlotVal) :=
  if pos ∉ positionOrder then slots
  else if slots.lookup pos = some (SlotVal.num 0) then
    if starCond lineup slots pos then
      slots.map (fun kv => if kv.1 = pos then (kv.1, SlotVal.starred 0) else kv)
    else slots
  else slots

/-- The per-day body of `_calculate_unused_spots` (lines 441-477): build the
day's eligible pool, run `get_optimal_lineup`, compute the open counts, then
run the asterisk loop over the lineup keys. -/
def unusedSpotsDay (today day : Nat) (s : Settings) (active : List Player)
    (moves : List SimMove) : List (String × SlotVal) :=
  let lineup := get_optimal_lineup (playersToday active moves day) s
  (s.map Prod.fst).foldl (flagStep lineup) (baseSlots today day s lineup)

/-! ### Goalie ratio recomputation (src/app.py lines 775-823 and 904-918) -/

/-- The per-team goalie-relevant stat categories.  The `GAA` and `SVpct`
fields of an *input* aggregate hold the raw sums of per-day values coming
from the `GROUP BY category` query (lines 775-802); the fix functions below
overwrite them. -/
structure GStats where
  GA : ℚ
  TOIG : ℚ
  SHO : ℚ
  SV : ℚ
  SA : ℚ
  GAA : ℚ
  SVpct : ℚ
deriving DecidableEq, Repr

/-- Componentwise sum of daily stat rows (the `SUM(value)` of the live-stat
query, lines 775-783). -/
def sumStats (days : List GStats) : GStats :=
  days.foldl (fun a d =>
    ⟨a.GA + d.GA, a.TOIG + d.TOIG, a.SHO + d.SHO, a.SV + d.SV, a.SA + d.SA,
     a.GAA + d.GAA, a.SVpct + d.SVpct⟩)
    ⟨0, 0, 0, 0, 0, 0, 0⟩

/-- Lines 805-823: the live-stat correction.  Each recorded shutout adds 60
minutes of time-on-ice; then GAA and SVpct are recomputed from the summed
counting stats, with the zero-denominator cases defined as 0. -/
def fixLiveStats (s : GStats) : GStats :=
  let toi := if s.SHO > 0 then s.TOIG + s.SHO * 60 else s.TOIG
  { s with
    TOIG := toi
    GAA := if toi > 0 then s.GA * 60 / toi else 0
    SVpct := if s.SA > 0 then s.SV / s.SA else 0 }

/-- Python's `round(x, n)` modelled on `ℚ` as round-half-up to `10 ^ n`-ths
(the display values in lines 911-918; the tie-breaking rule is irrelevant to
every statement below). -/
def roundTo (n : Nat) (x : ℚ) : ℚ :=
  ((x * (10 ^ n : ℚ) + 1 / 2).floor : ℚ) / (10 ^ n : ℚ)

/-- Lines 904-918: the final rest-of-week calculation.  GAA and SVpct are
recomputed from the summed counting stats (zero when the denominator is
zero) and rounded to 2 and 3 decimals; the counting stats are rounded to
1 decimal. -/
def rowFinalize (s : GStats) : GStats :=
  let gaa := if s.TOIG > 0 then s.GA * 60 / s.TOIG else 0
  let svp := if s.SA > 0 then s.SV / s.SA else 0
  ⟨roundTo 1 s.GA, roundTo 1 s.TOIG, roundTo 1 s.SHO, roundTo 1 s.SV,
   roundTo 1 s.SA, roundTo 2 gaa, roundTo 3 svp⟩

/-! ### The exact value-based solver (src/server/optimization_logic.py) -/

/-- A player as read by `find_optimal_lineup`: id, `marginal_value`, and the
`positions` string split on `', '`. -/
structure VPlayer where
  player_id : Nat
  marginal_value : ℚ
  positions : List String
deriving DecidableEq, Repr

/-- `sorted(active_players, key=lambda p: p.get('marginal_value', 0),
reverse=True)`: stable descending sort by value. -/
def sortByValueDesc (l : List VPlayer) : List VPlayer :=
  l.insertionSort (fun a b => b.marginal_value ≤ a.marginal_value)

/-- Remaining skater slots, as an association list (the dict/tuple state of
the recursion; the tuple ordering only serves the memo key and does not
affect results). -/
abbrev VSlots := List (String × Nat)

/-- `slots.get(pos, 0)`-style capacity read. -/
def capV (slots : VSlots) (pos : String) : Nat := (slots.lookup pos).getD 0

/-- `new_slots = slots.copy(); new_slots[pos] -= 1`. -/
def decrV (slots : VSlots) (pos : String) : VSlots :=
  slots.map (fun kv => if kv.1 = pos then (kv.1, kv.2 - 1) else kv)

/-- `solve_skaters` (optimization_logic.py lines 43-78), with the memo
dropped: the memo caches a pure function of exactly its key
`(player_index, slots_tuple)`, so it cannot change the returned value.
At each skater: start from the skip branch, then try every eligible slot
key with remaining capacity, keeping the strictly better score. -/
def solve_skaters : List VPlayer → VSlots → ℚ × List (VPlayer × String)
  | [], _ => (0, [])
  | p :: rest, slots =>
      let skip := solve_skaters rest slots
      (p.positions.filter (fun q => (slots.lookup q).isSome)).foldl
        (fun best pos =>
          if capV slots pos > 0 then
            let path := solve_skaters rest (decrV slots pos)
            if p.marginal_value + path.1 > best.1 then
              (p.marginal_value + path.1, (p, pos) :: path.2)
            else best
          else best)
        skip

/-- `find_optimal_lineup` (optimization_logic.py lines 11-90): sort by value
descending, split goalies from skaters, solve skaters exactly, and fill the
goalie slots with the first (best) goalies. -/
def find_optimal_lineup (active : List VPlayer) (slots : VSlots) :
    List (VPlayer × String) :=
  let sortedPlayers := sortByValueDesc active
  let eligible_skaters := sortedPlayers.filter (fun p => "G" ∉ p.positions)
  let eligible_goalies := sortedPlayers.filter (fun p => "G" ∈ p.positions)
  let skater_slots := slots.filter (fun kv => kv.1 ≠ "G")
  let goalie_slots_count := (slots.lookup "G").getD 0
  (solve_skaters eligible_skaters skater_slots).2
    ++ (eligible_goalies.take goalie_slots_count).map (fun g => (g, "G"))

/-! ### Heap model of the entry copy loop (src/app.py lines 242-247)

To state the frame property (the input player dicts are never mutated) we
model the Python heap shallowly: a heap is a list of player records, and the
input is a list of addresses into it.  `player_copy = p.copy()` allocates a
fresh record at the end of the heap; the `total_rank` sentinel write hits
only the fresh copy.  Everything after line 247 operates on the copies (the
lineup and pool lists hold the copies; no later line writes to any player
dict), so the pure functions above receive exactly the copied records. -/

/-- One iteration of the entry loop on the heap: read the record at the
given address, allocate the sentinel-substituted copy at a fresh address,
and collect the fresh address.  (An out-of-range address leaves the heap
unchanged; the source precondition is that all addresses are valid.) -/
def copyStep (acc : List Player × List Nat) (a : Nat) :
    List Player × List Nat :=
  match acc.1[a]? with
  | some p =>
      (acc.1 ++ [{ p with total_rank := some (p.total_rank.getD 60) }],
       acc.2 ++ [acc.1.length])
  | none => acc

/-- The entry loop of `get_optimal_lineup` on the heap (lines 242-247). -/
def processPlayersHeap (heap : List Player) (addrs : List Nat) :
    List Player × List Nat :=
  addrs.foldl copyStep (heap, [])

/-! ## Invariants and auxiliary predicates used in the proofs -/

/-- The lineup respects every configured capacity. -/
def CapInv (s : Settings) (f : String → List RPlayer) : Prop :=
  ∀ pos, (f pos).length ≤ capOf s pos

/-- State extension: pass 1 and pass 2 only append to slot lists and only
add ids. -/
def Ext (st st' : AState) : Prop :=
  (∀ q, ∃ t, st'.assigned q = st.assigned q ++ t) ∧ ∀ i ∈ st.ids, i ∈ st'.ids

/-- Safety of a benched player `p`: each of `p`'s lineup-eligible positions
is full, and (when non-empty) its worst starter is not strictly worse than
`p` — no swap that pass 3's rule would trigger is available against `p`. -/
def BSafe (s : Settings) (lineup : String → List RPlayer) (p : RPlayer) :
    Prop :=
  ∀ pos ∈ p.positions, posIn s pos = true →
    capOf s pos ≤ (lineup pos).length ∧
      (lineup pos ≠ [] → worstRank (lineup pos) ≤ p.total_rank)

/-- The one-slot-only invariant: for every starter `w` and every still
unprocessed benched player `b` that is eligible for `w`'s slot and strictly
better than `w`, the slot is `w`'s only lineup-eligible position.  This is
what makes an evicted starter safe: pass 3 can only evict `w` in favor of
such a `b`, and then `w` has nowhere else to go. -/
def KInv (s : Settings) (R : List RPlayer)
    (lineup : String → List RPlayer) : Prop :=
  ∀ pos, posIn s pos = true → ∀ w ∈ lineup pos, ∀ b ∈ R,
    pos ∈ b.positions → b.total_rank < w.total_rank →
    ∀ q ∈ w.positions, posIn s q = true → q = pos

/-- Every position eligible to some member of the (fixed) benched pool is
full.  This holds at the end of pass 2 and is preserved by pass 3 because
slot lists never shrink. -/
def FullFor (s : Settings) (P2 : List RPlayer)
    (lineup : String → List RPlayer) : Prop :=
  ∀ b ∈ P2, ∀ pos ∈ b.positions, posIn s pos = true →
    capOf s pos ≤ (lineup pos).length

/-- Every recorded id belongs to some player assigned to a lineup key. -/
def IdsOK (s : Settings) (st : AState) : Prop :=
  ∀ i ∈ st.ids, ∃ pos, posIn s pos = true ∧
    ∃ w ∈ st.assigned pos, w.player_id = i

/-- Positions that are not lineup keys never receive a player. -/
def NSInv (s : Settings) (f : String → List RPlayer) : Prop :=
  ∀ pos, ¬ posIn s pos = true → f pos = []

/-- A selection of (player, position) pairs drawn in order from a skater
list, each assigned position being one of the player's eligible positions:
the shape of every assignment the recursive solver can choose between. -/
inductive Sel : List VPlayer → List (VPlayer × String) → Prop
  | nil : Sel [] []
  | skip {p : VPlayer} {rest : List VPlayer} {r : List (VPlayer × String)} :
      Sel rest r → Sel (p :: rest) r
  | take {p : VPlayer} {rest : List VPlayer} {r : List (VPlayer × String)}
      {pos : String} : pos ∈ p.positions → Sel rest r →
      Sel (p :: rest) ((p, pos) :: r)

/-- The summed `marginal_value` of an assignment. -/
def rosterValue (r : List (VPlayer × String)) : ℚ :=
  (r.map (fun pr => pr.1.marginal_value)).sum

/-- How many players an assignment puts at a position. -/
def countPos (r : List (VPlayer × String)) (pos : String) : Nat :=
  (r.filter (fun pr => pr.2 = pos)).length

/-- The assignment respects the per-position slot counts. -/
abbrev CapsOK (slots : VSlots) (r : List (VPlayer × String)) : Prop :=
  ∀ pr ∈ r, countPos r pr.2 ≤ capV slots pr.2

instance : IsTotal RPlayer (fun a b => a.total_rank ≤ b.total_rank) :=
  ⟨fun a b => le_total a.total_rank b.total_rank⟩

instance : IsTrans RPlayer (fun a b => a.total_rank ≤ b.total_rank) :=
  ⟨fun _ _ _ hab hbc => le_trans hab hbc⟩

instance : IsTotal VPlayer (fun a b => b.marginal_value ≤ a.marginal_value) :=
  ⟨fun a b => (le_total b.marginal_value a.marginal_value)⟩

instance : IsTrans VPlayer (fun a b => b.marginal_value ≤ a.marginal_value) :=
  ⟨fun _ _ _ hab hbc => le_trans hbc hab⟩

/-! ## Basic lemmas about the building blocks -/

theorem foldl_induction {α β : Type} (f : β → α → β) (l : List α) (init : β)
    (P : β → Prop) (h0 : P init) (hstep : ∀ b a, a ∈ l → P b → P (f b a)) :
    P (l.foldl f init) := by
  induction l generalizing init with
  | nil => exact h0
  | cons x xs ih =>
      exact ih (f init x) (hstep init x (List.mem_cons_self x xs) h0)
        (fun b a ha hb => hstep b a (List.mem_cons_of_mem x ha) hb)

theorem foldl_pick_mem {α : Type} (f : α → α → α)
    (hf : ∀ b y, f b y = b ∨ f b y = y) :
    ∀ (l : List α) (a : α), l.foldl f a = a ∨ l.foldl f a ∈ l := by
  intro l
  induction l with
  | nil => intro a; exact Or.inl rfl
  | cons x xs ih =>
      intro a
      rcases ih (f a x) with h | h
      · rcases hf a x with h' | h'
        · rw [List.foldl_cons, h, h']; exact Or.inl rfl
        · rw [List.foldl_cons, h, h']
          exact Or.inr (List.mem_cons_self x xs)
      · exact Or.inr (List.mem_cons_of_mem x h)

theorem argminFirst_mem {f : String → Nat} {l : List String} {x : String}
    (h : argminFirst f l = some x) : x ∈ l := by
  cases l with
  | nil => simp [argminFirst] at h
  | cons y ys =>
      simp only [argminFirst, Option.some.injEq] at h
      rcases foldl_pick_mem (fun b z => if f z < f b then z else b)
        (fun b z => by dsimp only; split <;> simp) ys y with h' | h'
      · rw [← h, h']; exact List.mem_cons_self y ys
      · rw [← h]; exact List.mem_cons_of_mem y h'

theorem argminFirst_none {f : String → Nat} {l : List String} :
    argminFirst f l = none ↔ l = [] := by
  cases l <;> simp [argminFirst]

theorem worstStarter_mem {l : List RPlayer} {w : RPlayer}
    (h : worstStarter l = some w) : w ∈ l := by
  cases l with
  | nil => simp [worstStarter] at h
  | cons x xs =>
      simp only [worstStarter, Option.some.injEq] at h
      have hpick : ∀ (b y : RPlayer),
          (if y.total_rank > b.total_rank then y else b) = b ∨
          (if y.total_rank > b.total_rank then y else b) = y := by
        intro b y; split <;> simp
      rcases foldl_pick_mem _ hpick xs x with h' | h'
      · cases h'.symm.trans h
        exact List.mem_cons_self _ _
      · exact List.mem_cons_of_mem x (h ▸ h')

theorem foldl_max_ub (xs : List RPlayer) (a : RPlayer) :
    a.total_rank ≤
      (xs.foldl (fun b y => if y.total_rank > b.total_rank then y else b) a).total_rank
    ∧ ∀ x ∈ xs, x.total_rank ≤
      (xs.foldl (fun b y => if y.total_rank > b.total_rank then y else b) a).total_rank := by
  induction xs generalizing a with
  | nil => exact ⟨le_refl _, by simp⟩
  | cons x xs ih =>
      constructor
      · rw [List.foldl_cons]
        refine le_trans ?_ (ih (if x.total_rank > a.total_rank then x else a)).1
        split <;> [exact le_of_lt (by assumption); exact le_refl _]
      · intro z hz
        rw [List.foldl_cons]
        rcases List.mem_cons.mp hz with rfl | hz'
        · refine le_trans ?_ (ih (if z.total_rank > a.total_rank then z else a)).1
          split <;> [exact le_refl _; exact le_of_not_lt (by assumption)]
        · exact (ih _).2 z hz'

theorem worstStarter_ub {l : List RPlayer} {w : RPlayer}
    (h : worstStarter l = some w) : ∀ x ∈ l, x.total_rank ≤ w.total_rank := by
  cases l with
  | nil => simp [worstStarter] at h
  | cons x xs =>
      simp only [worstStarter, Option.some.injEq] at h
      intro z hz
      rcases List.mem_cons.mp hz with rfl | hz'
      · rw [← h]; exact (foldl_max_ub xs z).1
      · rw [← h]; exact (foldl_max_ub xs x).2 z hz'

theorem worstStarter_isSome {l : List RPlayer} (h : l ≠ []) :
    ∃ w, worstStarter l = some w := by
  cases l with
  | nil => exact absurd rfl h
  | cons x xs => exact ⟨_, rfl⟩

theorem worstRank_of_some {l : List RPlayer} {w : RPlayer}
    (h : worstStarter l = some w) : worstRank l = w.total_rank := by
  simp [worstRank, h]

theorem worstRank_ub {l : List RPlayer} (h : l ≠ []) :
    ∀ x ∈ l, x.total_rank ≤ worstRank l := by
  obtain ⟨w, hw⟩ := worstStarter_isSome h
  rw [worstRank_of_some hw]
  exact worstStarter_ub hw

theorem worstRank_le {l : List RPlayer} (h : l ≠ []) {c : ℚ}
    (hub : ∀ x ∈ l, x.total_rank ≤ c) : worstRank l ≤ c := by
  obtain ⟨w, hw⟩ := worstStarter_isSome h
  rw [worstRank_of_some hw]
  exact hub w (worstStarter_mem hw)

/-! ## Capacity invariant (claim C1) -/

theorem assignP_assigned (st : AState) (p : RPlayer) (pos q : String) :
    (assignP st p pos).assigned q =
      if q = pos then st.assigned pos ++ [p] else st.assigned q := rfl

theorem pass1Step_capInv {s : Settings} {st : AState} (p : RPlayer)
    (h : CapInv s st.assigned) : CapInv s (pass1Step s st p).assigned := by
  unfold pass1Step
  split
  · split
    · rename_i pos _ hcond
      intro q
      rw [assignP_assigned]
      split
      · rename_i hq; subst hq
        simpa [List.length_append] using hcond.2
      · exact h q
    · exact h
  · exact h

theorem pass2Step_capInv {s : Settings} {pool : List RPlayer} {st : AState}
    (p : RPlayer) (h : CapInv s st.assigned) :
    CapInv s (pass2Step s pool st p).assigned := by
  unfold pass2Step
  split
  · exact h
  · rename_i best hmin
    have hbm := argminFirst_mem hmin
    rw [List.mem_filter] at hbm
    have hopen : (st.assigned best).length < capOf s best := by
      have := hbm.2
      simp only [Bool.and_eq_true, decide_eq_true_eq] at this
      exact this.2
    intro q
    rw [assignP_assigned]
    split
    · rename_i hq; subst hq
      simpa [List.length_append] using hopen
    · exact h q

theorem appendAt_apply (lineup : String → List RPlayer) (q2 : String)
    (x : RPlayer) (q : String) :
    appendAt lineup q2 x q = if q = q2 then lineup q2 ++ [x] else lineup q := rfl

theorem swapAt_apply (lineup : String → List RPlayer) (pos : String)
    (w b : RPlayer) (q : String) :
    swapAt lineup pos w b q =
      if q = pos then (lineup pos).erase w ++ [b] else lineup q := rfl

theorem swapAt_len {lineup : String → List RPlayer} {pos : String}
    {w : RPlayer} (b : RPlayer) (hwmem : w ∈ lineup pos) (q : String) :
    (swapAt lineup pos w b q).length = (lineup q).length := by
  rw [swapAt_apply]
  split
  · rename_i hq
    have hlenpos : 0 < (lineup pos).length := List.length_pos.mpr
      (fun hemp => by rw [hemp] at hwmem; exact List.not_mem_nil w hwmem)
    rw [hq, List.length_append, List.length_erase_of_mem hwmem,
      List.length_singleton]
    omega
  · rfl

/-! ## Structural characterizations of the three passes -/

theorem Ext.refl (st : AState) : Ext st st :=
  ⟨fun _ => ⟨[], (List.append_nil _).symm⟩, fun _ h => h⟩

theorem Ext.trans {a b c : AState} (h1 : Ext a b) (h2 : Ext b c) : Ext a c := by
  refine ⟨fun q => ?_, fun i hi => h2.2 i (h1.2 i hi)⟩
  obtain ⟨t1, ht1⟩ := h1.1 q
  obtain ⟨t2, ht2⟩ := h2.1 q
  exact ⟨t1 ++ t2, by rw [ht2, ht1, List.append_assoc]⟩

theorem Ext.mem_assigned {st st' : AState} (h : Ext st st') {p : RPlayer}
    {q : String} (hp : p ∈ st.assigned q) : p ∈ st'.assigned q := by
  obtain ⟨t, ht⟩ := h.1 q
  rw [ht]
  exact List.mem_append_left t hp

theorem Ext.len_le {st st' : AState} (h : Ext st st') (q : String) :
    (st.assigned q).length ≤ (st'.assigned q).length := by
  obtain ⟨t, ht⟩ := h.1 q
  rw [ht, List.length_append]
  exact Nat.le_add_right _ _

theorem assignP_ext (st : AState) (p : RPlayer) (pos : String) :
    Ext st (assignP st p pos) := by
  refine ⟨fun q => ?_, fun i hi => List.mem_cons_of_mem _ hi⟩
  rw [assignP_assigned]
  split
  · rename_i hq; subst hq; exact ⟨[p], rfl⟩
  · exact ⟨[], (List.append_nil _).symm⟩

theorem pass1Step_cases (s : Settings) (st : AState) (p : RPlayer) :
    pass1Step s st p = st ∨
    (∃ pos, p.positions = [pos] ∧ posIn s pos = true ∧
      (st.assigned pos).length < capOf s pos ∧
      pass1Step s st p = assignP st p pos) := by
  unfold pass1Step
  split
  · rename_i pos hpos
    split
    · rename_i hcond
      exact Or.inr ⟨pos, hpos, hcond.1, hcond.2, rfl⟩
    · exact Or.inl rfl
  · exact Or.inl rfl

theorem pass1Step_ext (s : Settings) (st : AState) (p : RPlayer) :
    Ext st (pass1Step s st p) := by
  rcases pass1Step_cases s st p with h | ⟨pos, _, _, _, h⟩
  · rw [h]; exact Ext.refl st
  · rw [h]; exact assignP_ext st p pos

theorem pass2Step_cases (s : Settings) (pool : List RPlayer) (st : AState)
    (x : RPlayer) :
    (pass2Step s pool st x = st ∧
      ∀ pos ∈ x.positions, posIn s pos = true →
        capOf s pos ≤ (st.assigned pos).length) ∨
    (∃ best, posIn s best = true ∧ (st.assigned best).length < capOf s best ∧
      pass2Step s pool st x = assignP st x best) := by
  unfold pass2Step
  split
  · rename_i hmin
    rw [argminFirst_none, List.filter_eq_nil_iff] at hmin
    refine Or.inl ⟨rfl, fun pos hpos hin => ?_⟩
    have := hmin pos hpos
    simp only [Bool.and_eq_true, decide_eq_true_eq, not_and] at this
    exact Nat.le_of_not_lt (this hin)
  · rename_i best hmin
    have hbm := argminFirst_mem hmin
    rw [List.mem_filter] at hbm
    have := hbm.2
    simp only [Bool.and_eq_true, decide_eq_true_eq] at this
    exact Or.inr ⟨best, this.1, this.2, rfl⟩

theorem pass2Step_ext (s : Settings) (pool : List RPlayer) (st : AState)
    (x : RPlayer) : Ext st (pass2Step s pool st x) := by
  rcases pass2Step_cases s pool st x with ⟨h, _⟩ | ⟨best, _, _, h⟩
  · rw [h]; exact Ext.refl st
  · rw [h]; exact assignP_ext st x best

theorem foldl_ext {α : Type} {f : AState → α → AState}
    (hf : ∀ st a, Ext st (f st a)) :
    ∀ (l : List α) (st : AState), Ext st (l.foldl f st) := by
  intro l
  induction l with
  | nil => intro st; exact Ext.refl st
  | cons x xs ih => intro st; exact Ext.trans (hf st x) (ih (f st x))

theorem pass1_ext (s : Settings) (pool : List RPlayer) (st : AState) :
    Ext st (pass1 s pool st) :=
  foldl_ext (fun st p => pass1Step_ext s st p) _ st

theorem pass2_ext (s : Settings) (pool : List RPlayer) (st : AState) :
    Ext st (pass2 s pool st) :=
  foldl_ext (fun st p => pass2Step_ext s pool st p) _ st

/-- Members added by pass 1 are single-position players sitting in their one
eligible position. -/
theorem pass1_mem (s : Settings) (pool : List RPlayer) (st : AState)
    {w : RPlayer} {pos : String}
    (h : w ∈ (pass1 s pool st).assigned pos) :
    w ∈ st.assigned pos ∨ w.positions = [pos] := by
  unfold pass1 at h
  revert h
  refine foldl_induction _ _ _
    (fun (st' : AState) => w ∈ st'.assigned pos → w ∈ st.assigned pos ∨ w.positions = [pos])
    (fun h => Or.inl h) (fun st' p _ ih h => ?_)
  rcases pass1Step_cases s st' p with heq | ⟨pos', hp, _, _, heq⟩
  · rw [heq] at h; exact ih h
  · rw [heq, assignP_assigned] at h
    by_cases hq : pos = pos'
    · subst hq
      rw [if_pos rfl] at h
      rcases List.mem_append.mp h with h' | h'
      · exact ih h'
      · rcases List.mem_singleton.mp h' with rfl
        exact Or.inr hp
    · rw [if_neg hq] at h
      exact ih h

/-- Members added by pass 2 come from the iterated pool. -/
theorem pass2_go_mem (s : Settings) (pool : List RPlayer) :
    ∀ (l : List RPlayer) (st : AState) {w : RPlayer} {pos : String},
      w ∈ (l.foldl (pass2Step s pool) st).assigned pos →
      w ∈ st.assigned pos ∨ w ∈ l := by
  intro l
  induction l with
  | nil => intro st w pos h; exact Or.inl h
  | cons x xs ih =>
      intro st w pos h
      rcases ih (pass2Step s pool st x) h with h' | h'
      · rcases pass2Step_cases s pool st x with ⟨heq, _⟩ | ⟨best, _, _, heq⟩
        · rw [heq] at h'; exact Or.inl h'
        · rw [heq, assignP_assigned] at h'
          by_cases hq : pos = best
          · subst hq
            rw [if_pos rfl] at h'
            rcases List.mem_append.mp h' with h'' | h''
            · exact Or.inl h''
            · rcases List.mem_singleton.mp h'' with rfl
              exact Or.inr (List.mem_cons_self _ _)
          · rw [if_neg hq] at h'
            exact Or.inl h'
      · exact Or.inr (List.mem_cons_of_mem x h')

/-- A player that pass 2 adds to a slot found that slot open. -/
theorem pass2_go_open (s : Settings) (pool : List RPlayer) :
    ∀ (l : List RPlayer) (st : AState) {w : RPlayer} {pos : String},
      w ∈ (l.foldl (pass2Step s pool) st).assigned pos →
      w ∉ st.assigned pos →
      (st.assigned pos).length < capOf s pos := by
  intro l
  induction l with
  | nil => intro st w pos h hn; exact absurd h hn
  | cons x xs ih =>
      intro st w pos h hn
      rcases pass2Step_cases s pool st x with ⟨heq, _⟩ | ⟨best, hb1, hb2, heq⟩
      · rw [List.foldl_cons, heq] at h
        exact ih st h hn
      · by_cases hmem : w ∈ (pass2Step s pool st x).assigned pos
        · rw [heq, assignP_assigned] at hmem
          by_cases hq : pos = best
          · subst hq; exact hb2
          · rw [if_neg hq] at hmem; exact absurd hmem hn
        · have := ih (pass2Step s pool st x) (by rwa [List.foldl_cons] at h) hmem
          calc (st.assigned pos).length
              ≤ ((pass2Step s pool st x).assigned pos).length :=
                (pass2Step_ext s pool st x).len_le pos
            _ < capOf s pos := this

/-- A player of the pass-2 pool that ends pass 2 unassigned saw all of its
lineup-eligible positions full at its own turn; since slot lists only grow,
they are full at the end of pass 2 as well. -/
theorem pass2_go_benched_full (s : Settings) (pool : List RPlayer) :
    ∀ (l : List RPlayer) (st : AState) {b : RPlayer},
      b ∈ l → b.player_id ∉ (l.foldl (pass2Step s pool) st).ids →
      ∀ pos ∈ b.positions, posIn s pos = true →
      capOf s pos ≤ ((l.foldl (pass2Step s pool) st).assigned pos).length := by
  intro l
  induction l with
  | nil => intro st b hb; exact absurd hb (List.not_mem_nil b)
  | cons x xs ih =>
      intro st b hb hid pos hpos hin
      rw [List.foldl_cons] at hid ⊢
      rcases List.mem_cons.mp hb with rfl | hb'
      · rcases pass2Step_cases s pool st b with ⟨heq, hfull⟩ | ⟨best, _, _, heq⟩
        · rw [heq] at hid ⊢
          calc capOf s pos ≤ (st.assigned pos).length := hfull pos hpos hin
            _ ≤ _ := (foldl_ext (fun st p => pass2Step_ext s pool st p) xs st).len_le pos
        · exfalso
          apply hid
          have : b.player_id ∈ (pass2Step s pool st b).ids := by
            rw [heq]; exact List.mem_cons_self _ _
          exact (foldl_ext (fun st p => pass2Step_ext s pool st p) xs _).2 _ this
      · exact ih (pass2Step s pool st x) hb' hid pos hpos hin

theorem reSlot_cases (s : Settings) (lineup : String → List RPlayer)
    (w : RPlayer) :
    (reSlot s lineup w = lineup ∧
      ∀ q ∈ w.positions, posIn s q = true → capOf s q ≤ (lineup q).length) ∨
    (∃ q, q ∈ w.positions ∧ posIn s q = true ∧
      (lineup q).length < capOf s q ∧
      reSlot s lineup w = appendAt lineup q w) := by
  unfold reSlot
  split
  · rename_i q hfind
    have hpred := List.find?_some hfind
    have hmem := List.mem_of_find?_eq_some hfind
    simp only [Bool.and_eq_true, decide_eq_true_eq] at hpred
    exact Or.inr ⟨q, hmem, hpred.1, hpred.2, rfl⟩
  · rename_i hfind
    refine Or.inl ⟨rfl, fun q hq hin => ?_⟩
    have := List.find?_eq_none.mp hfind q hq
    simp only [Bool.and_eq_true, decide_eq_true_eq, not_and] at this
    exact Nat.le_of_not_lt (this hin)

theorem pass3Step_cases (s : Settings) (lineup : String → List RPlayer)
    (b : RPlayer) :
    (pass3Step s lineup b = lineup ∧
      ∀ pos ∈ b.positions, posIn s pos = true → lineup pos ≠ [] →
        ¬ b.total_rank < worstRank (lineup pos)) ∨
    (∃ pos w, pos ∈ b.positions ∧ posIn s pos = true ∧ lineup pos ≠ [] ∧
      b.total_rank < worstRank (lineup pos) ∧
      worstStarter (lineup pos) = some w ∧
      pass3Step s lineup b = reSlot s (swapAt lineup pos w b) w) := by
  unfold pass3Step
  split
  · rename_i hfind
    refine Or.inl ⟨rfl, fun pos hpos hin hne => ?_⟩
    have := List.find?_eq_none.mp hfind pos hpos
    simp only [Bool.and_eq_true, decide_eq_true_eq, Bool.not_eq_true',
      not_and] at this
    exact this ⟨hin, by simpa [List.isEmpty_iff] using hne⟩
  · rename_i pos hfind
    have hpred := List.find?_some hfind
    have hmem := List.mem_of_find?_eq_some hfind
    simp only [Bool.and_eq_true, decide_eq_true_eq, Bool.not_eq_true'] at hpred
    have hne : lineup pos ≠ [] := by
      intro hemp
      rw [hemp] at hpred
      simp at hpred
    obtain ⟨w, hw⟩ := worstStarter_isSome hne
    rw [hw]
    exact Or.inr ⟨pos, w, hmem, hpred.1.1, hne, hpred.2, hw, rfl⟩

theorem appendAt_len_le (lineup : String → List RPlayer) (q2 : String)
    (x : RPlayer) (q : String) :
    (lineup q).length ≤ (appendAt lineup q2 x q).length := by
  rw [appendAt_apply]
  split
  · rename_i hq; subst hq
    rw [List.length_append]
    exact Nat.le_add_right _ _
  · exact Nat.le_refl _

/-- Pass 3 never shrinks a slot list. -/
theorem pass3Step_len (s : Settings) (lineup : String → List RPlayer)
    (b : RPlayer) (q : String) :
    (lineup q).length ≤ (pass3Step s lineup b q).length := by
  rcases pass3Step_cases s lineup b with ⟨heq, _⟩ | ⟨pos, w, _, _, hne, _, hws, heq⟩
  · rw [heq]
  · rw [heq]
    have hwmem := worstStarter_mem hws
    have hstep1 : ∀ q', (lineup q').length ≤ (swapAt lineup pos w b q').length :=
      fun q' => Nat.le_of_eq (swapAt_len b hwmem q').symm
    rcases reSlot_cases s (swapAt lineup pos w b) w with ⟨heq2, _⟩ | ⟨q2, _, _, _, heq2⟩
    · rw [heq2]; exact hstep1 q
    · rw [heq2]
      exact Nat.le_trans (hstep1 q) (appendAt_len_le _ q2 w q)

/-- Pass 3 preserves the capacity invariant. -/
theorem pass3Step_capInv {s : Settings} {lineup : String → List RPlayer}
    (b : RPlayer) (h : CapInv s lineup) :
    CapInv s (pass3Step s lineup b) := by
  rcases pass3Step_cases s lineup b with ⟨heq, _⟩ | ⟨pos, w, _, _, hne, _, hws, heq⟩
  · rw [heq]; exact h
  · rw [heq]
    have hwmem := worstStarter_mem hws
    have h1 : CapInv s (swapAt lineup pos w b) := by
      intro q
      rw [swapAt_len b hwmem q]
      exact h q
    rcases reSlot_cases s (swapAt lineup pos w b) w with
      ⟨heq2, _⟩ | ⟨q2, _, _, hopen2, heq2⟩
    · rw [heq2]; exact h1
    · rw [heq2]
      intro q
      rw [appendAt_apply]
      split
      · rename_i hq; subst hq
        rw [List.length_append, List.length_singleton]
        omega
      · exact h1 q

theorem pass3_len (s : Settings) (benched : List RPlayer)
    (lineup : String → List RPlayer) (q : String) :
    (lineup q).length ≤ (pass3 s benched lineup q).length := by
  unfold pass3
  revert lineup
  induction benched with
  | nil => intro lineup; exact Nat.le_refl _
  | cons b bs ih =>
      intro lineup
      rw [List.foldl_cons]
      exact Nat.le_trans (pass3Step_len s lineup b q) (ih (pass3Step s lineup b))

theorem get_optimal_lineup_capInv (players : List Player) (s : Settings) :
    CapInv s (get_optimal_lineup players s) := by
  have h0 : CapInv s (fun _ => ([] : List RPlayer)) := by
    intro pos; simp
  have h1 : CapInv s (stage1 players s).assigned := by
    unfold stage1 pass1
    exact foldl_induction _ _ _ (fun (st : AState) => CapInv s st.assigned) h0
      (fun st p _ hp => pass1Step_capInv p hp)
  have h2 : CapInv s (stage2 players s).assigned := by
    unfold stage2 pass2
    exact foldl_induction _ _ _ (fun (st : AState) => CapInv s st.assigned) h1
      (fun st p _ hp => pass2Step_capInv p hp)
  unfold get_optimal_lineup pass3
  exact foldl_induction _ _ _ (CapInv s) h2
    (fun lu b _ hl => pass3Step_capInv b hl)

/-- C1.  For every input and every position, the returned lineup assigns at
most the configured capacity, and a position with zero configured capacity
never receives any player. -/
theorem capacity_invariant (players : List Player) (s : Settings) (pos : String) :
    ((get_optimal_lineup players s) pos).length ≤ capOf s pos ∧
      (capOf s pos = 0 → (get_optimal_lineup players s) pos = []) := by
  have h := get_optimal_lineup_capInv players s pos
  refine ⟨h, fun h0 => ?_⟩
  rw [h0] at h
  exact List.length_eq_zero.mp (Nat.le_zero.mp h)

/-! ## The monotone-upgrade property of pass 3 (claim C4) -/

/-- Replacing the worst starter by a strictly better player does not
increase the worst rank of a slot. -/
theorem worstRank_swap_le {l : List RPlayer} {w b : RPlayer}
    (hws : worstStarter l = some w) (hb : b.total_rank < worstRank l) :
    worstRank (l.erase w ++ [b]) ≤ worstRank l := by
  apply worstRank_le (by simp)
  intro x hx
  rcases List.mem_append.mp hx with hx' | hx'
  · rw [worstRank_of_some hws]
    exact worstStarter_ub hws x (List.mem_of_mem_erase hx')
  · rcases List.mem_singleton.mp hx' with rfl
    exact le_of_lt hb

/-- One pass-3 step preserves the safety of any benched player. -/
theorem BSafe_pass3Step {s : Settings} {lineup : String → List RPlayer}
    {p : RPlayer} (b : RPlayer) (h : BSafe s lineup p) :
    BSafe s (pass3Step s lineup b) p := by
  rcases pass3Step_cases s lineup b with
    ⟨heq, _⟩ | ⟨pos, w, hposmem, hposin, hne, hlt, hws, heq⟩
  · rw [heq]; exact h
  · rw [heq]
    have hwmem := worstStarter_mem hws
    have h1 : BSafe s (swapAt lineup pos w b) p := by
      intro q hq hqin
      obtain ⟨hc, hr⟩ := h q hq hqin
      constructor
      · rw [swapAt_len b hwmem q]; exact hc
      · intro hne'
        by_cases hqp : q = pos
        · subst hqp
          have hq1 : swapAt lineup q w b q = (lineup q).erase w ++ [b] := by
            rw [swapAt_apply, if_pos rfl]
          rw [hq1]
          exact le_trans (worstRank_swap_le hws hlt) (hr hne)
        · have hq1 : swapAt lineup pos w b q = lineup q := by
            rw [swapAt_apply, if_neg hqp]
          rw [hq1] at hne' ⊢
          exact hr hne'
    rcases reSlot_cases s (swapAt lineup pos w b) w with
      ⟨heq2, _⟩ | ⟨q2, hq2mem, hq2in, hq2open, heq2⟩
    · rw [heq2]; exact h1
    · rw [heq2]
      intro q hq hqin
      obtain ⟨hc, hr⟩ := h1 q hq hqin
      by_cases hqq : q = q2
      · subst hqq
        exact absurd hq2open (Nat.not_lt.mpr hc)
      · have hq1 : appendAt (swapAt lineup pos w b) q2 w q
            = swapAt lineup pos w b q := by
          rw [appendAt_apply, if_neg hqq]
        rw [hq1]
        exact ⟨hc, hr⟩

theorem FullFor_pass3Step {s : Settings} {P2 : List RPlayer}
    {lineup : String → List RPlayer} (b : RPlayer)
    (h : FullFor s P2 lineup) : FullFor s P2 (pass3Step s lineup b) :=
  fun b' hb' pos hpos hin =>
    le_trans (h b' hb' pos hpos hin) (pass3Step_len s lineup b pos)

theorem KInv_mono {s : Settings} {R R' : List RPlayer}
    {lineup : String → List RPlayer} (hsub : ∀ b ∈ R', b ∈ R)
    (h : KInv s R lineup) : KInv s R' lineup :=
  fun pos hpos w hw b hb => h pos hpos w hw b (hsub b hb)

/-- One pass-3 step (by the head of the remaining benched list) preserves
the one-slot-only invariant for the tail. -/
theorem KInv_pass3Step {s : Settings} {P2 R' : List RPlayer} {b0 : RPlayer}
    {lineup : String → List RPlayer}
    (hK : KInv s (b0 :: R') lineup)
    (hFull : FullFor s P2 lineup)
    (hsub : ∀ b ∈ R', b ∈ P2)
    (hhead : ∀ b ∈ R', b0.total_rank ≤ b.total_rank) :
    KInv s R' (pass3Step s lineup b0) := by
  have hK' : KInv s R' lineup :=
    KInv_mono (fun b hb => List.mem_cons_of_mem b0 hb) hK
  rcases pass3Step_cases s lineup b0 with
    ⟨heq, _⟩ | ⟨pos, w, hposmem, hposin, hne, hlt, hws, heq⟩
  · rw [heq]; exact hK'
  · rw [heq]
    have hwmem := worstStarter_mem hws
    have h1 : KInv s R' (swapAt lineup pos w b0) := by
      intro pos' hpos' x hx b hb hbelig hblt
      rw [swapAt_apply] at hx
      by_cases hpp : pos' = pos
      · subst hpp
        rw [if_pos rfl] at hx
        rcases List.mem_append.mp hx with hx' | hx'
        · exact hK' pos' hpos' x (List.mem_of_mem_erase hx') b hb hbelig hblt
        · rcases List.mem_singleton.mp hx' with rfl
          exact absurd hblt (not_lt_of_le (hhead b hb))
      · rw [if_neg hpp] at hx
        exact hK' pos' hpos' x hx b hb hbelig hblt
    rcases reSlot_cases s (swapAt lineup pos w b0) w with
      ⟨heq2, _⟩ | ⟨q2, hq2mem, hq2in, hq2open, heq2⟩
    · rw [heq2]; exact h1
    · rw [heq2]
      intro pos' hpos' x hx b hb hbelig hblt
      rw [appendAt_apply] at hx
      by_cases hpp : pos' = q2
      · subst hpp
        rw [if_pos rfl] at hx
        rcases List.mem_append.mp hx with hx' | hx'
        · exact h1 pos' hpos' x hx' b hb hbelig hblt
        · -- the re-slot target was open, but every position eligible to a
          -- pool member is full: contradiction
          exfalso
          have hfull := hFull b (hsub b hb) pos' hbelig hpos'
          have hle : capOf s pos' ≤ (swapAt lineup pos w b0 pos').length := by
            rw [swapAt_len b0 hwmem pos']
            exact hfull
          exact absurd hq2open (Nat.not_lt.mpr hle)
      · rw [if_neg hpp] at hx
        exact h1 pos' hpos' x hx b hb hbelig hblt

/-- The master induction over pass 3: a player that starts out still to be
processed, assigned somewhere, or already safe, and ends up fully benched,
is safe in the final lineup. -/
theorem pass3_master (s : Settings) (P2 : List RPlayer) :
    ∀ (R : List RPlayer) (lineup : String → List RPlayer),
      (∀ b ∈ R, b ∈ P2) →
      List.Pairwise (fun a b => a.total_rank ≤ b.total_rank) R →
      FullFor s P2 lineup → KInv s R lineup →
      ∀ p : RPlayer,
        (p ∈ R ∨ (∃ q, p ∈ lineup q) ∨ BSafe s lineup p) →
        (∀ q, p ∉ R.foldl (pass3Step s) lineup q) →
        BSafe s (R.foldl (pass3Step s) lineup) p := by
  intro R
  induction R with
  | nil =>
      intro lineup _ _ _ _ p hdisj hnot
      rcases hdisj with h | ⟨q, hq⟩ | h
      · exact absurd h (List.not_mem_nil p)
      · exact absurd hq (hnot q)
      · exact h
  | cons b0 R' ih =>
      intro lineup hsub hpair hFull hK p hdisj hnot
      rw [List.foldl_cons] at hnot ⊢
      have hsub' : ∀ b ∈ R', b ∈ P2 := fun b hb =>
        hsub b (List.mem_cons_of_mem b0 hb)
      have hpair' := List.Pairwise.of_cons hpair
      have hhead : ∀ b ∈ R', b0.total_rank ≤ b.total_rank :=
        fun b hb => (List.pairwise_cons.mp hpair).1 b hb
      have hFull' : FullFor s P2 (pass3Step s lineup b0) :=
        FullFor_pass3Step b0 hFull
      have hK' : KInv s R' (pass3Step s lineup b0) :=
        KInv_pass3Step hK hFull hsub' hhead
      apply ih (pass3Step s lineup b0) hsub' hpair' hFull' hK' p _ hnot
      -- transport the disjunction through one step
      rcases hdisj with hmem | ⟨q0, hq0⟩ | hsafe
      · rcases List.mem_cons.mp hmem with rfl | hmem'
        · -- p is the player processed at this step
          rcases pass3Step_cases s lineup p with
            ⟨heq, hall⟩ | ⟨pos, w, hposmem, hposin, hne, hlt, hws, heq⟩
          · -- no profitable swap: p is safe (its positions are full by
            -- FullFor, and each non-empty slot's worst is not worse)
            right; right
            rw [heq]
            intro pos hpos hposin
            refine ⟨hFull p (hsub p (List.mem_cons_self _ _)) pos hpos hposin, ?_⟩
            intro hne
            exact not_lt.mp (hall pos hpos hposin hne)
          · -- p swapped itself in at pos
            right; left
            refine ⟨pos, ?_⟩
            rw [heq]
            have hmem1 : p ∈ swapAt lineup pos w p pos := by
              rw [swapAt_apply, if_pos rfl]
              exact List.mem_append_right _ (List.mem_singleton_self p)
            rcases reSlot_cases s (swapAt lineup pos w p) w with
              ⟨heq2, _⟩ | ⟨q2, _, _, _, heq2⟩
            · rw [heq2]; exact hmem1
            · rw [heq2, appendAt_apply]
              split
              · rename_i hq
                have hmem2 : p ∈ swapAt lineup pos w p q2 := by
                  rw [← hq]; exact hmem1
                exact List.mem_append_left _ hmem2
              · exact hmem1
        · left; exact hmem'
      · -- p was assigned somewhere
        rcases pass3Step_cases s lineup b0 with
          ⟨heq, _⟩ | ⟨pos, w, hposmem, hposin, hne, hlt, hws, heq⟩
        · right; left; exact ⟨q0, by rw [heq]; exact hq0⟩
        · by_cases hpw : p = w
          · subst hpw
            by_cases hq0pos : q0 = pos
            · subst hq0pos
              -- p is the evicted worst starter
              rw [heq]
              rcases reSlot_cases s (swapAt lineup q0 p b0) p with
                ⟨heq2, hfull2⟩ | ⟨q2, _, _, _, heq2⟩
              · -- not re-slotted: p becomes safe
                right; right
                rw [heq2]
                have hlt' : b0.total_rank < p.total_rank := by
                  rw [worstRank_of_some hws] at hlt; exact hlt
                have hsingle : ∀ q ∈ p.positions, posIn s q = true → q = q0 :=
                  hK q0 hposin p (worstStarter_mem hws) b0
                    (List.mem_cons_self _ _) hposmem hlt'
                intro q hq hqin
                have hqq0 : q = q0 := hsingle q hq hqin
                subst hqq0
                constructor
                · exact hfull2 q hq hqin
                · intro _
                  have hq1 : swapAt lineup q p b0 q = (lineup q).erase p ++ [b0] := by
                    rw [swapAt_apply, if_pos rfl]
                  rw [hq1]
                  calc worstRank ((lineup q).erase p ++ [b0])
                      ≤ worstRank (lineup q) := worstRank_swap_le hws hlt
                    _ = p.total_rank := worstRank_of_some hws
              · -- re-slotted at q2
                right; left
                refine ⟨q2, ?_⟩
                rw [heq2, appendAt_apply, if_pos rfl]
                exact List.mem_append_right _ (List.mem_singleton_self p)
            · -- p coincides with the evicted starter but also occurs in a
              -- different, untouched slot
              right; left
              refine ⟨q0, ?_⟩
              rw [heq]
              have hmem1 : p ∈ swapAt lineup pos p b0 q0 := by
                rw [swapAt_apply, if_neg hq0pos]
                exact hq0
              rcases reSlot_cases s (swapAt lineup pos p b0) p with
                ⟨heq2, _⟩ | ⟨q2, _, _, _, heq2⟩
              · rw [heq2]; exact hmem1
              · rw [heq2, appendAt_apply]
                split
                · rename_i hq
                  have hmem2 : p ∈ swapAt lineup pos p b0 q2 := by
                    rw [← hq]; exact hmem1
                  exact List.mem_append_left _ hmem2
                · exact hmem1
          · -- p is not the evicted starter: it stays where it was
            right; left
            refine ⟨q0, ?_⟩
            rw [heq]
            have hmem1 : p ∈ swapAt lineup pos w b0 q0 := by
              rw [swapAt_apply]
              split
              · rename_i hq; rw [hq] at hq0
                exact List.mem_append_left _ (List.mem_erase_of_ne hpw |>.mpr hq0)
              · exact hq0
            rcases reSlot_cases s (swapAt lineup pos w b0) w with
              ⟨heq2, _⟩ | ⟨q2, _, _, _, heq2⟩
            · rw [heq2]; exact hmem1
            · rw [heq2, appendAt_apply]
              split
              · rename_i hq; rw [hq] at hmem1
                exact List.mem_append_left _ hmem1
              · exact hmem1
      · right; right; exact BSafe_pass3Step b0 hsafe

/-! ## Stage-level facts feeding the pass-3 master induction -/

theorem mem_sortByRank {l : List RPlayer} {x : RPlayer} :
    x ∈ sortByRank l ↔ x ∈ l :=
  (List.perm_insertionSort _ l).mem_iff

theorem sortByRank_sorted (l : List RPlayer) :
    List.Pairwise (fun a b => a.total_rank ≤ b.total_rank) (sortByRank l) :=
  List.sorted_insertionSort (fun a b : RPlayer => a.total_rank ≤ b.total_rank) l

theorem capOf_eq_zero {s : Settings} {pos : String}
    (h : ¬ posIn s pos = true) : capOf s pos = 0 := by
  unfold posIn at h
  unfold capOf
  cases hl : s.lookup pos with
  | none => rfl
  | some v => rw [hl] at h; simp at h

theorem posIn_mem_keys {s : Settings} {q : String} (h : posIn s q = true) :
    q ∈ s.map Prod.fst := by
  induction s with
  | nil => simp [posIn, List.lookup] at h
  | cons kv t ih =>
      rw [List.map_cons, List.mem_cons]
      unfold posIn at h
      rcases kv with ⟨k, v⟩
      rw [List.lookup_cons] at h
      cases hbeq : q == k with
      | true => exact Or.inl (eq_of_beq hbeq)
      | false =>
          simp only [hbeq] at h
          exact Or.inr (ih h)

/-- Members added by pass 1 come from the iterated list. -/
theorem pass1_go_mem (s : Settings) :
    ∀ (l : List RPlayer) (st : AState) {w : RPlayer} {pos : String},
      w ∈ (l.foldl (pass1Step s) st).assigned pos →
      w ∈ st.assigned pos ∨ w ∈ l := by
  intro l
  induction l with
  | nil => intro st w pos h; exact Or.inl h
  | cons x xs ih =>
      intro st w pos h
      rcases ih (pass1Step s st x) h with h' | h'
      · rcases pass1Step_cases s st x with heq | ⟨pos', _, _, _, heq⟩
        · rw [heq] at h'; exact Or.inl h'
        · rw [heq, assignP_assigned] at h'
          by_cases hq : pos = pos'
          · subst hq
            rw [if_pos rfl] at h'
            rcases List.mem_append.mp h' with h'' | h''
            · exact Or.inl h''
            · rcases List.mem_singleton.mp h'' with rfl
              exact Or.inr (List.mem_cons_self _ _)
          · rw [if_neg hq] at h'
            exact Or.inl h'
      · exact Or.inr (List.mem_cons_of_mem x h')

/-- Every player in the lineup after pass 2 is one of the input players. -/
theorem stage2_mem (players : List Player) (s : Settings) {w : RPlayer}
    {pos : String} (h : w ∈ (stage2 players s).assigned pos) :
    w ∈ rankedOf players := by
  unfold stage2 pass2 at h
  rcases pass2_go_mem s (pool1 players s) (pool1 players s) _ h with h' | h'
  · unfold stage1 pass1 at h'
    rcases pass1_go_mem s _ _ h' with h'' | h''
    · simp at h''
    · exact List.mem_of_mem_filter (mem_sortByRank.mp h'')
  · unfold pool1 at h'
    exact List.mem_of_mem_filter (mem_sortByRank.mp h')

theorem IdsOK_assignP {s : Settings} {st : AState} (p : RPlayer) {pos : String}
    (hpos : posIn s pos = true) (h : IdsOK s st) : IdsOK s (assignP st p pos) := by
  intro i hi
  rcases List.mem_cons.mp hi with rfl | hi'
  · refine ⟨pos, hpos, p, ?_, rfl⟩
    rw [assignP_assigned, if_pos rfl]
    exact List.mem_append_right _ (List.mem_singleton_self p)
  · obtain ⟨pos', hpos', w, hw, hwid⟩ := h i hi'
    refine ⟨pos', hpos', w, ?_, hwid⟩
    rw [assignP_assigned]
    split
    · rename_i hq; rw [hq] at hw; exact List.mem_append_left _ hw
    · exact hw

theorem stage2_idsOK (players : List Player) (s : Settings) :
    IdsOK s (stage2 players s) := by
  have h0 : IdsOK s ⟨fun _ => [], []⟩ := by
    intro i hi; simp at hi
  have h1 : IdsOK s (stage1 players s) := by
    unfold stage1 pass1
    refine foldl_induction _ _ _ (fun (st : AState) => IdsOK s st) h0 ?_
    intro st p _ hst
    rcases pass1Step_cases s st p with heq | ⟨pos, _, hin, _, heq⟩
    · rw [heq]; exact hst
    · rw [heq]; exact IdsOK_assignP p hin hst
  unfold stage2 pass2
  refine foldl_induction _ _ _ (fun (st : AState) => IdsOK s st) h1 ?_
  intro st p _ hst
  rcases pass2Step_cases s (pool1 players s) st p with ⟨heq, _⟩ | ⟨pos, hin, _, heq⟩
  · rw [heq]; exact hst
  · rw [heq]; exact IdsOK_assignP p hin hst

theorem NSInv_assignP {s : Settings} {st : AState} (p : RPlayer) {pos : String}
    (hpos : posIn s pos = true) (h : NSInv s st.assigned) :
    NSInv s (assignP st p pos).assigned := by
  intro q hq
  rw [assignP_assigned]
  split
  · rename_i hqq; rw [hqq] at hq; exact absurd hpos hq
  · exact h q hq

theorem get_optimal_lineup_ns (players : List Player) (s : Settings) :
    NSInv s (get_optimal_lineup players s) := by
  have h0 : NSInv s (fun _ => ([] : List RPlayer)) := fun _ _ => rfl
  have h1 : NSInv s (stage1 players s).assigned := by
    unfold stage1 pass1
    refine foldl_induction _ _ _ (fun (st : AState) => NSInv s st.assigned) h0 ?_
    intro st p _ hst
    rcases pass1Step_cases s st p with heq | ⟨pos, _, hin, _, heq⟩
    · rw [heq]; exact hst
    · rw [heq]; exact NSInv_assignP p hin hst
  have h2 : NSInv s (stage2 players s).assigned := by
    unfold stage2 pass2
    refine foldl_induction _ _ _ (fun (st : AState) => NSInv s st.assigned) h1 ?_
    intro st p _ hst
    rcases pass2Step_cases s (pool1 players s) st p with
      ⟨heq, _⟩ | ⟨pos, hin, _, heq⟩
    · rw [heq]; exact hst
    · rw [heq]; exact NSInv_assignP p hin hst
  unfold get_optimal_lineup pass3
  refine foldl_induction _ _ _ (NSInv s) h2 ?_
  intro lineup b _ hl
  rcases pass3Step_cases s lineup b with
    ⟨heq, _⟩ | ⟨pos, w, _, hposin, _, _, hws, heq⟩
  · rw [heq]; exact hl
  · rw [heq]
    have h1' : NSInv s (swapAt lineup pos w b) := by
      intro q hq
      rw [swapAt_apply]
      split
      · rename_i hqq; rw [hqq] at hq; exact absurd hposin hq
      · exact hl q hq
    rcases reSlot_cases s (swapAt lineup pos w b) w with
      ⟨heq2, _⟩ | ⟨q2, _, hq2in, _, heq2⟩
    · rw [heq2]; exact h1'
    · rw [heq2]
      intro q hq
      rw [appendAt_apply]
      split
      · rename_i hqq; rw [hqq] at hq; exact absurd hq2in hq
      · exact h1' q hq

/-- The central pass-2 ordering fact: a player assigned by pass 2 to a slot
is never strictly worse than a pool player that is eligible for that slot
and ends pass 2 unassigned.  (The benched player was processed earlier in
rank order, at which time every one of its open-eligible slots was already
full; slots only fill up, so the later assignment could not have found the
slot open — unless the assigned player's rank is no worse.) -/
theorem pass2_go_nosteal (s : Settings) (pool : List RPlayer) :
    ∀ (l : List RPlayer) (st : AState),
      List.Pairwise (fun a b => a.total_rank ≤ b.total_rank) l →
      ∀ {w : RPlayer} {pos : String},
        w ∈ (l.foldl (pass2Step s pool) st).assigned pos →
        w ∉ st.assigned pos →
        ∀ b ∈ l, b.player_id ∉ (l.foldl (pass2Step s pool) st).ids →
          pos ∈ b.positions → ¬ b.total_rank < w.total_rank := by
  intro l
  induction l with
  | nil => intro st _ w pos h hn; exact absurd h hn
  | cons x xs ih =>
      intro st hpair w pos h hn b hb hid hbelig
      rw [List.foldl_cons] at h hid
      by_cases hw' : w ∈ (pass2Step s pool st x).assigned pos
      · rcases pass2Step_cases s pool st x with ⟨heq, _⟩ | ⟨best, hb1, hb2, heq⟩
        · rw [heq] at hw'; exact absurd hw' hn
        · have hxids : x.player_id ∈ (pass2Step s pool st x).ids := by
            rw [heq]; exact List.mem_cons_self _ _
          rw [heq, assignP_assigned] at hw'
          by_cases hq : pos = best
          · subst hq
            rw [if_pos rfl] at hw'
            rcases List.mem_append.mp hw' with h'' | h''
            · exact absurd h'' hn
            · rcases List.mem_singleton.mp h'' with rfl
              rcases List.mem_cons.mp hb with rfl | hb'
              · exfalso
                apply hid
                exact (foldl_ext (fun st p => pass2Step_ext s pool st p) xs _).2
                  _ hxids
              · exact not_lt_of_le ((List.pairwise_cons.mp hpair).1 b hb')
          · rw [if_neg hq] at hw'; exact absurd hw' hn
      · rcases List.mem_cons.mp hb with rfl | hb'
        · rcases pass2Step_cases s pool st b with ⟨heq, hfull⟩ | ⟨best, _, _, heq⟩
          · exfalso
            have hopen := pass2_go_open s pool xs (pass2Step s pool st b) h hw'
            rw [heq] at hopen
            have hposin : posIn s pos = true := by
              by_contra hf
              rw [capOf_eq_zero hf] at hopen
              omega
            exact absurd hopen (Nat.not_lt.mpr (hfull pos hbelig hposin))
          · exfalso
            apply hid
            have : b.player_id ∈ (pass2Step s pool st b).ids := by
              rw [heq]; exact List.mem_cons_self _ _
            exact (foldl_ext (fun st p => pass2Step_ext s pool st p) xs _).2 _ this
        · exact ih (pass2Step s pool st x) (List.Pairwise.of_cons hpair) h hw'
            b hb' hid hbelig

theorem pool1_pairwise (players : List Player) (s : Settings) :
    List.Pairwise (fun a b => a.total_rank ≤ b.total_rank) (pool1 players s) :=
  sortByRank_sorted _

theorem pool2_pairwise (players : List Player) (s : Settings) :
    List.Pairwise (fun a b => a.total_rank ≤ b.total_rank) (pool2 players s) :=
  List.Pairwise.filter _ (pool1_pairwise players s)

theorem pool2_id_not_assigned (players : List Player) (s : Settings)
    {b : RPlayer} (hb : b ∈ pool2 players s) :
    b ∈ pool1 players s ∧ b.player_id ∉ (stage2 players s).ids := by
  have := List.mem_filter.mp hb
  exact ⟨this.1, by simpa using this.2⟩

/-- The one-slot-only invariant holds when pass 3 starts. -/
theorem KInv_stage2 (players : List Player) (s : Settings) :
    KInv s (pool2 players s) (stage2 players s).assigned := by
  intro pos hposin w hw b hb hbelig hblt
  by_cases hw1 : w ∈ (stage1 players s).assigned pos
  · have h1 := pass1_mem s (rankedOf players) ⟨fun _ => [], []⟩ hw1
    rcases h1 with h1 | h1
    · simp at h1
    · intro q hq _
      rw [h1] at hq
      exact List.mem_singleton.mp hq
  · exfalso
    obtain ⟨hb', hbid⟩ := pool2_id_not_assigned players s hb
    exact absurd hblt
      (pass2_go_nosteal s (pool1 players s) (pool1 players s)
        (stage1 players s) (pool1_pairwise players s) hw hw1 b hb' hbid hbelig)

/-- Every position eligible to a pass-3 pool member is full when pass 3
starts. -/
theorem FullFor_stage2 (players : List Player) (s : Settings) :
    FullFor s (pool2 players s) (stage2 players s).assigned := by
  intro b hb pos hpos hin
  obtain ⟨hb', hbid⟩ := pool2_id_not_assigned players s hb
  exact pass2_go_benched_full s (pool1 players s) (pool1 players s)
    (stage1 players s) hb' hbid pos hpos hin

theorem nodup_id_inj {l : List RPlayer}
    (hnd : (l.map RPlayer.player_id).Nodup) {a b : RPlayer}
    (ha : a ∈ l) (hb : b ∈ l) (hab : a.player_id = b.player_id) : a = b :=
  List.inj_on_of_nodup_map hnd ha hb hab

theorem nodup_ranked_ids (players : List Player)
    (hnodup : (players.map Player.player_id).Nodup) :
    ((rankedOf players).map RPlayer.player_id).Nodup := by
  have hperm : List.Perm (rankedOf players) (players.map processPlayer) :=
    List.perm_insertionSort _ _
  refine ((hperm.map RPlayer.player_id).nodup_iff).mpr ?_
  rw [List.map_map]
  exact hnodup

/-- An input player that is nowhere in the lineup after pass 2 is in the
pass-3 benched pool. -/
theorem benched_in_pool2 (players : List Player) (s : Settings)
    (hnd : ((rankedOf players).map RPlayer.player_id).Nodup)
    {p : RPlayer} (hp : p ∈ rankedOf players)
    (hnot : ∀ q, p ∉ (stage2 players s).assigned q) :
    p ∈ pool2 players s := by
  have hid2 : p.player_id ∉ (stage2 players s).ids := by
    intro hin
    obtain ⟨pos, _, w, hw, hwid⟩ := stage2_idsOK players s p.player_id hin
    have hwr : w ∈ rankedOf players := stage2_mem players s hw
    have hwp : w = p := nodup_id_inj hnd hwr hp hwid
    rw [hwp] at hw
    exact hnot pos hw
  have hid1 : p.player_id ∉ (stage1 players s).ids := fun hin =>
    hid2 ((pass2_ext s (pool1 players s) (stage1 players s)).2 _ hin)
  have hp1 : p ∈ pool1 players s := by
    unfold pool1
    rw [mem_sortByRank]
    exact List.mem_filter.mpr ⟨hp, by simpa using hid1⟩
  exact List.mem_filter.mpr ⟨hp1, by simpa using hid2⟩

/-- C4.  After pass 3 completes, no benched player is strictly better than
the worst starter of any of its eligible positions with a non-empty
assignee list: no swap that pass 3's own rule would trigger remains
unexecuted, including for starters evicted and left benched by pass 3
itself.  (`hnodup` reflects the source comment that `player_id` is
guaranteed unique; "benched" is: not assigned to any lineup key.) -/
theorem upgrade_pass_monotone (players : List Player) (s : Settings)
    (hnodup : (players.map Player.player_id).Nodup)
    (p : RPlayer) (hp : p ∈ rankedOf players)
    (hben : ∀ pos ∈ s.map Prod.fst, p ∉ get_optimal_lineup players s pos) :
    ∀ pos ∈ p.positions, get_optimal_lineup players s pos ≠ [] →
      ¬ p.total_rank < worstRank (get_optimal_lineup players s pos) := by
  have hns := get_optimal_lineup_ns players s
  have hben' : ∀ q, p ∉ get_optimal_lineup players s q := by
    intro q
    by_cases hq : posIn s q = true
    · exact hben q (posIn_mem_keys hq)
    · rw [hns q hq]
      exact List.not_mem_nil p
  have hnd := nodup_ranked_ids players hnodup
  have hdisj : p ∈ pool2 players s ∨
      (∃ q, p ∈ (stage2 players s).assigned q) ∨
      BSafe s (stage2 players s).assigned p := by
    by_cases hassigned : ∃ q, p ∈ (stage2 players s).assigned q
    · exact Or.inr (Or.inl hassigned)
    · push_neg at hassigned
      exact Or.inl (benched_in_pool2 players s hnd hp hassigned)
  have hmaster := pass3_master s (pool2 players s) (pool2 players s)
    (stage2 players s).assigned (fun b hb => hb) (pool2_pairwise players s)
    (FullFor_stage2 players s) (KInv_stage2 players s) p hdisj hben'
  intro pos hpos hne
  by_cases hqin : posIn s pos = true
  · exact not_lt_of_le ((hmaster pos hpos hqin).2 hne)
  · rw [hns pos hqin] at hne
    exact absurd rfl hne

/-! ## The scarcity-aware pass 2 (claim C2) -/

theorem foldl_min_spec (f : String → Nat) :
    ∀ (l : List String) (a r : String),
      r = l.foldl (fun b y => if f y < f b then y else b) a →
      ∃ l1 l2, a :: l = l1 ++ r :: l2 ∧
        (∀ y ∈ a :: l, f r ≤ f y) ∧ ∀ y ∈ l1, f r < f y := by
  intro l
  induction l with
  | nil =>
      intro a r hr
      subst hr
      exact ⟨[], [], rfl, by simp, by simp⟩
  | cons y ys ih =>
      intro a r hr
      rw [List.foldl_cons] at hr
      by_cases hy : f y < f a
      · rw [if_pos hy] at hr
        obtain ⟨l1, l2, hdec, hmin, hstrict⟩ := ih y r hr
        refine ⟨a :: l1, l2, ?_, ?_, ?_⟩
        · rw [List.cons_append, ← hdec]
        · intro z hz
          rcases List.mem_cons.mp hz with rfl | hz'
          · exact le_of_lt (lt_of_le_of_lt (hmin y (List.mem_cons_self y ys)) hy)
          · exact hmin z hz'
        · intro z hz
          rcases List.mem_cons.mp hz with rfl | hz'
          · exact lt_of_le_of_lt (hmin y (List.mem_cons_self y ys)) hy
          · exact hstrict z hz'
      · rw [if_neg hy] at hr
        have hay : f a ≤ f y := Nat.le_of_not_lt hy
        obtain ⟨l1, l2, hdec, hmin, hstrict⟩ := ih a r hr
        cases l1 with
        | nil =>
            rw [List.nil_append] at hdec
            injection hdec with h1 h2
            refine ⟨[], y :: ys, ?_, ?_, by simp⟩
            · rw [List.nil_append, ← h1]
            · intro z hz
              rcases List.mem_cons.mp hz with rfl | hz'
              · rw [← h1]
              · rcases List.mem_cons.mp hz' with rfl | hz''
                · rw [← h1]; exact hay
                · exact hmin z (List.mem_cons_of_mem a (h2 ▸ hz''))
        | cons c t =>
            rw [List.cons_append] at hdec
            injection hdec with h1 h2
            have hra : f r < f a := h1 ▸ hstrict c (List.mem_cons_self c t)
            refine ⟨a :: y :: t, l2, ?_, ?_, ?_⟩
            · rw [h2, List.cons_append, List.cons_append]
            · intro z hz
              rcases List.mem_cons.mp hz with rfl | hz'
              · exact le_of_lt hra
              · rcases List.mem_cons.mp hz' with rfl | hz''
                · exact le_of_lt (lt_of_lt_of_le hra hay)
                · exact hmin z (List.mem_cons_of_mem a (h2 ▸ hz''))
            · intro z hz
              rcases List.mem_cons.mp hz with rfl | hz'
              · exact hra
              · rcases List.mem_cons.mp hz' with rfl | hz''
                · exact lt_of_lt_of_le hra hay
                · exact hstrict z (List.mem_cons_of_mem c hz'')

/-- Python's `min(d, key=d.get)`: the result is a member attaining the
minimum, and every element listed before it is strictly larger (first of
the ties wins). -/
theorem argminFirst_spec {f : String → Nat} {l : List String} {x : String}
    (h : argminFirst f l = some x) :
    ∃ l1 l2, l = l1 ++ x :: l2 ∧ (∀ y ∈ l, f x ≤ f y) ∧ ∀ y ∈ l1, f x < f y := by
  cases l with
  | nil => simp [argminFirst] at h
  | cons a t =>
      simp only [argminFirst, Option.some.injEq] at h
      exact foldl_min_spec f t a x h.symm

/-- C2.  First conjunct: whenever a pass-2 player has at least one open
eligible lineup position, the step assigns it to the open eligible position
with the lowest scarcity count; ties are broken by the first position
encountered in the open-position iteration (every position listed before the
chosen one is strictly scarcer).  Second conjunct: on the concrete scenario
`{C:2, D:2, G:1}` with three C-only players of ranks 5, 10, 15 and a {C,D}
player of rank 1, the lineup starts the rank-5 and rank-10 players at C,
starts the rank-1 player at D, and benches the rank-15 player. -/
theorem pass2_scarcity_choice :
    (∀ (s : Settings) (pool : List RPlayer) (st : AState) (player : RPlayer),
      player.positions.filter
          (fun pos => posIn s pos ∧ (st.assigned pos).length < capOf s pos) ≠ [] →
      ∃ best l1 l2,
        player.positions.filter
            (fun pos => posIn s pos ∧ (st.assigned pos).length < capOf s pos)
          = l1 ++ best :: l2 ∧
        pass2Step s pool st player = assignP st player best ∧
        (∀ q ∈ player.positions.filter
            (fun pos => posIn s pos ∧ (st.assigned pos).length < capOf s pos),
          scarcity st pool player best ≤ scarcity st pool player q) ∧
        (∀ q ∈ l1, scarcity st pool player best < scarcity st pool player q)) ∧
    (get_optimal_lineup
        [⟨1, some 5, ["C"], []⟩, ⟨2, some 10, ["C"], []⟩,
         ⟨3, some 15, ["C"], []⟩, ⟨4, some 1, ["C", "D"], []⟩]
        [("C", 2), ("D", 2), ("G", 1)] "C"
      = [⟨1, 5, ["C"]⟩, ⟨2, 10, ["C"]⟩] ∧
     get_optimal_lineup
        [⟨1, some 5, ["C"], []⟩, ⟨2, some 10, ["C"], []⟩,
         ⟨3, some 15, ["C"], []⟩, ⟨4, some 1, ["C", "D"], []⟩]
        [("C", 2), ("D", 2), ("G", 1)] "D"
      = [⟨4, 1, ["C", "D"]⟩] ∧
     ∀ pos ∈ ["C", "D", "G"], (⟨3, (15:ℚ), ["C"]⟩ : RPlayer) ∉
        get_optimal_lineup
          [⟨1, some 5, ["C"], []⟩, ⟨2, some 10, ["C"], []⟩,
           ⟨3, some 15, ["C"], []⟩, ⟨4, some 1, ["C", "D"], []⟩]
          [("C", 2), ("D", 2), ("G", 1)] pos) := by
  constructor
  · intro s pool st player hne
    unfold pass2Step
    cases hmin : argminFirst (scarcity st pool player)
        (player.positions.filter
          (fun pos => posIn s pos ∧ (st.assigned pos).length < capOf s pos)) with
    | none => exact absurd (argminFirst_none.mp hmin) hne
    | some best =>
        obtain ⟨l1, l2, hdec, hminle, hstrict⟩ := argminFirst_spec hmin
        exact ⟨best, l1, l2, hdec, rfl, hminle, hstrict⟩
  · refine ⟨by decide, by decide, by decide⟩

/-- C2 witness: on the scenario's own pass-2 boundary state (after pass 1),
the flexible rank-1 {C,D} player is assigned to D. -/
theorem pass2_scarcity_choice_witness :
    pass2Step [("C", 2), ("D", 2), ("G", 1)]
      (pool1
        [⟨1, some 5, ["C"], []⟩, ⟨2, some 10, ["C"], []⟩,
         ⟨3, some 15, ["C"], []⟩, ⟨4, some 1, ["C", "D"], []⟩]
        [("C", 2), ("D", 2), ("G", 1)])
      (stage1
        [⟨1, some 5, ["C"], []⟩, ⟨2, some 10, ["C"], []⟩,
         ⟨3, some 15, ["C"], []⟩, ⟨4, some 1, ["C", "D"], []⟩]
        [("C", 2), ("D", 2), ("G", 1)])
      ⟨4, 1, ["C", "D"]⟩
    = assignP
        (stage1
          [⟨1, some 5, ["C"], []⟩, ⟨2, some 10, ["C"], []⟩,
           ⟨3, some 15, ["C"], []⟩, ⟨4, some 1, ["C", "D"], []⟩]
          [("C", 2), ("D", 2), ("G", 1)])
        ⟨4, 1, ["C", "D"]⟩ "D" := by
  obtain ⟨best, l1, l2, hdec, hstep, _, _⟩ :=
    pass2_scarcity_choice.1 [("C", 2), ("D", 2), ("G", 1)]
      (pool1
        [⟨1, some 5, ["C"], []⟩, ⟨2, some 10, ["C"], []⟩,
         ⟨3, some 15, ["C"], []⟩, ⟨4, some 1, ["C", "D"], []⟩]
        [("C", 2), ("D", 2), ("G", 1)])
      (stage1
        [⟨1, some 5, ["C"], []⟩, ⟨2, some 10, ["C"], []⟩,
         ⟨3, some 15, ["C"], []⟩, ⟨4, some 1, ["C", "D"], []⟩]
        [("C", 2), ("D", 2), ("G", 1)])
      ⟨4, 1, ["C", "D"]⟩ (by decide)
  have hfil : (RPlayer.positions ⟨4, 1, ["C", "D"]⟩).filter
      (fun pos => posIn [("C", 2), ("D", 2), ("G", 1)] pos ∧
        ((stage1
          [⟨1, some 5, ["C"], []⟩, ⟨2, some 10, ["C"], []⟩,
           ⟨3, some 15, ["C"], []⟩, ⟨4, some 1, ["C", "D"], []⟩]
          [("C", 2), ("D", 2), ("G", 1)]).assigned pos).length
          < capOf [("C", 2), ("D", 2), ("G", 1)] pos) = ["D"] := by decide
  rw [hfil] at hdec
  have hbest : best = "D" := by
    cases l1 with
    | nil =>
        rw [List.nil_append] at hdec
        injection hdec with h1 _
        exact h1.symm
    | cons c t =>
        rw [List.cons_append] at hdec
        injection hdec with _ h2
        exact absurd h2.symm (by simp)
  rw [hstep, hbest]

/-! ## Single-eligibility priority (claim C3) -/

/-- Through one pass-3 step, an assigned player either stays assigned to its
slot or is replaced there by a strictly better-ranked player. -/
theorem pass3Step_evict_better (s : Settings) (lineup : String → List RPlayer)
    (b : RPlayer) (p : RPlayer) (pos : String)
    (h : p ∈ lineup pos ∨ ∃ q ∈ lineup pos, q.total_rank < p.total_rank) :
    p ∈ pass3Step s lineup b pos ∨
      ∃ q ∈ pass3Step s lineup b pos, q.total_rank < p.total_rank := by
  rcases pass3Step_cases s lineup b with
    ⟨heq, _⟩ | ⟨pos', w, _, _, hne, hlt, hws, heq⟩
  · rw [heq]; exact h
  · rw [heq]
    have hwr : w.total_rank = worstRank (lineup pos') :=
      (worstRank_of_some hws).symm
    -- transfer through the swap
    have h1 : p ∈ swapAt lineup pos' w b pos ∨
        ∃ q ∈ swapAt lineup pos' w b pos, q.total_rank < p.total_rank := by
      by_cases hpp : pos = pos'
      · subst hpp
        have hswap : swapAt lineup pos w b pos = (lineup pos).erase w ++ [b] := by
          rw [swapAt_apply, if_pos rfl]
        rcases h with h | ⟨q, hq, hqlt⟩
        · by_cases hpw : p = w
          · right
            refine ⟨b, ?_, ?_⟩
            · rw [hswap]
              exact List.mem_append_right _ (List.mem_singleton_self b)
            · rw [hpw, hwr]; exact hlt
          · left
            rw [hswap]
            exact List.mem_append_left _ ((List.mem_erase_of_ne hpw).mpr h)
        · by_cases hqw : q = w
          · right
            refine ⟨b, ?_, ?_⟩
            · rw [hswap]
              exact List.mem_append_right _ (List.mem_singleton_self b)
            · calc b.total_rank < worstRank (lineup pos) := hlt
                _ = q.total_rank := by rw [hqw, hwr]
                _ < p.total_rank := hqlt
          · right
            refine ⟨q, ?_, hqlt⟩
            rw [hswap]
            exact List.mem_append_left _ ((List.mem_erase_of_ne hqw).mpr hq)
      · have hswap : swapAt lineup pos' w b pos = lineup pos := by
          rw [swapAt_apply, if_neg hpp]
        rw [hswap]
        exact h
    -- transfer through the re-slot (which only appends)
    rcases reSlot_cases s (swapAt lineup pos' w b) w with
      ⟨heq2, _⟩ | ⟨q2, _, _, _, heq2⟩
    · rw [heq2]; exact h1
    · rw [heq2]
      rcases h1 with h1 | ⟨q, hq, hqlt⟩
      · left
        rw [appendAt_apply]
        split
        · rename_i hqq
          exact List.mem_append_left _ (hqq ▸ h1)
        · exact h1
      · right
        refine ⟨q, ?_, hqlt⟩
        rw [appendAt_apply]
        split
        · rename_i hqq
          exact List.mem_append_left _ (hqq ▸ hq)
        · exact hq

theorem pass3_evict_better (s : Settings) :
    ∀ (R : List RPlayer) (lineup : String → List RPlayer) (p : RPlayer)
      (pos : String), p ∈ lineup pos →
      p ∈ R.foldl (pass3Step s) lineup pos ∨
        ∃ q ∈ R.foldl (pass3Step s) lineup pos, q.total_rank < p.total_rank := by
  intro R
  induction R with
  | nil => intro lineup p pos h; exact Or.inl h
  | cons b bs ih =>
      intro lineup p pos h
      rw [List.foldl_cons]
      rcases pass3Step_evict_better s lineup b p pos (Or.inl h) with h' | ⟨q, hq, hqlt⟩
      · exact ih (pass3Step s lineup b) p pos h'
      · rcases ih (pass3Step s lineup b) q pos hq with h'' | ⟨q', hq', hq'lt⟩
        · exact Or.inr ⟨q, h'', hqlt⟩
        · exact Or.inr ⟨q', hq', lt_trans hq'lt hqlt⟩

/-- C3 counterexample.  Players: id 1 with rank 10, eligible only for C;
id 2 with rank 5, eligible for C and D; capacities {C: 1}.  The single-
eligibility player is assigned in pass 1 (capacity was available), no
better-ranked single-eligibility player exists, yet the upgrade pass evicts
it in favor of the multi-position rank-5 player and the final lineup
benches it — contradicting the claim that such a player always stays
assigned. -/
theorem single_eligibility_priority_cex :
    (⟨1, (10:ℚ), ["C"]⟩ : RPlayer).positions.length = 1 ∧
    (⟨2, (5:ℚ), ["C", "D"]⟩ : RPlayer).positions.length ≠ 1 ∧
    (stage1 [⟨1, some 10, ["C"], []⟩, ⟨2, some 5, ["C", "D"], []⟩]
        [("C", 1)]).assigned "C" = [⟨1, 10, ["C"]⟩] ∧
    get_optimal_lineup [⟨1, some 10, ["C"], []⟩, ⟨2, some 5, ["C", "D"], []⟩]
        [("C", 1)] "C" = [⟨2, 5, ["C", "D"]⟩] ∧
    (∀ pos ∈ ["C"], (⟨1, (10:ℚ), ["C"]⟩ : RPlayer) ∉
      get_optimal_lineup [⟨1, some 10, ["C"], []⟩, ⟨2, some 5, ["C", "D"], []⟩]
        [("C", 1)] pos) := by
  refine ⟨by decide, by decide, by decide, by decide, by decide⟩

/-- C3 amended.  A single-eligibility player whose position has remaining
capacity at its pass-1 turn is assigned by that pass-1 step; every pass-1
assignment survives pass 2 unchanged; and pass 3 removes an assigned player
from its slot only by replacing it there with a strictly better-ranked
player (so a pass-1 single-eligibility starter can be benched only by such
an eviction — as the counterexample shows it can be). -/
theorem single_eligibility_priority_amended :
    (∀ (s : Settings) (st : AState) (p : RPlayer) (pos : String),
      p.positions = [pos] → posIn s pos = true →
      (st.assigned pos).length < capOf s pos →
      p ∈ (pass1Step s st p).assigned pos) ∧
    (∀ (players : List Player) (s : Settings) (p : RPlayer) (pos : String),
      p ∈ (stage1 players s).assigned pos →
      p ∈ (stage2 players s).assigned pos) ∧
    (∀ (players : List Player) (s : Settings) (p : RPlayer) (pos : String),
      p ∈ (stage2 players s).assigned pos →
      p ∈ get_optimal_lineup players s pos ∨
        ∃ q ∈ get_optimal_lineup players s pos, q.total_rank < p.total_rank) := by
  refine ⟨?_, ?_, ?_⟩
  · intro s st p pos hpos hin hlen
    unfold pass1Step
    rw [hpos]
    show p ∈ (if posIn s pos = true ∧ (st.assigned pos).length < capOf s pos
      then assignP st p pos else st).assigned pos
    rw [if_pos ⟨hin, hlen⟩, assignP_assigned, if_pos rfl]
    exact List.mem_append_right _ (List.mem_singleton_self p)
  · intro players s p pos h
    exact (pass2_ext s (pool1 players s) (stage1 players s)).mem_assigned h
  · intro players s p pos h
    exact pass3_evict_better s (pool2 players s) (stage2 players s).assigned p pos h

/-- C3 amended witness: on the counterexample input, the pass-1 step
assigns the single-eligibility player, it survives pass 2, and in the final
lineup it has been replaced at C by a strictly better-ranked player. -/
theorem single_eligibility_priority_amended_witness :
    ((⟨1, (10:ℚ), ["C"]⟩ : RPlayer) ∈
      (pass1Step [("C", 1)] ⟨fun _ => [], []⟩ ⟨1, 10, ["C"]⟩).assigned "C") ∧
    ((⟨1, (10:ℚ), ["C"]⟩ : RPlayer) ∈
      (stage2 [⟨1, some 10, ["C"], []⟩, ⟨2, some 5, ["C", "D"], []⟩]
        [("C", 1)]).assigned "C") ∧
    (∃ q ∈ get_optimal_lineup
        [⟨1, some 10, ["C"], []⟩, ⟨2, some 5, ["C", "D"], []⟩] [("C", 1)] "C",
      q.total_rank < (10:ℚ)) := by
  refine ⟨?_, ?_, ?_⟩
  · exact single_eligibility_priority_amended.1 [("C", 1)] ⟨fun _ => [], []⟩
      ⟨1, 10, ["C"]⟩ "C" rfl (by decide) (by decide)
  · exact single_eligibility_priority_amended.2.1
      [⟨1, some 10, ["C"], []⟩, ⟨2, some 5, ["C", "D"], []⟩] [("C", 1)]
      ⟨1, 10, ["C"]⟩ "C" (by decide)
  · have h := single_eligibility_priority_amended.2.2
      [⟨1, some 10, ["C"], []⟩, ⟨2, some 5, ["C", "D"], []⟩] [("C", 1)]
      ⟨1, 10, ["C"]⟩ "C" (by decide)
    rcases h with h | h
    · exact absurd h (by decide)
    · exact h

/-- C4 witness: in the `{C:2, D:2, G:1}` scenario the rank-15 C-only player
is left benched, and it is not strictly better than the worst C starter. -/
theorem upgrade_pass_monotone_witness :
    ¬ (15:ℚ) < worstRank (get_optimal_lineup
      [⟨1, some 5, ["C"], []⟩, ⟨2, some 10, ["C"], []⟩,
       ⟨3, some 15, ["C"], []⟩, ⟨4, some 1, ["C", "D"], []⟩]
      [("C", 2), ("D", 2), ("G", 1)] "C") := by
  have h := upgrade_pass_monotone
    [⟨1, some 5, ["C"], []⟩, ⟨2, some 10, ["C"], []⟩,
     ⟨3, some 15, ["C"], []⟩, ⟨4, some 1, ["C", "D"], []⟩]
    [("C", 2), ("D", 2), ("G", 1)] (by decide) ⟨3, 15, ["C"]⟩ (by decide)
    (by decide) "C" (by decide) (by decide)
  exact h

/-! ## The unranked-player sentinel (claim C5) -/

/-- C5 counterexample.  Capacity {C: 1}; a ranked player with
`total_rank = 100` and an unranked player.  The claim says the unranked
player is ordered behind every ranked player, which would start the ranked
player; but the sentinel substitution gives the unranked player key 60,
which sorts ahead of rank 100, so the unranked player takes the slot. -/
theorem sentinel_sixty_cex :
    get_optimal_lineup [⟨1, some 100, ["C"], []⟩, ⟨2, none, ["C"], []⟩]
        [("C", 1)] "C" = [⟨2, 60, ["C"]⟩] ∧
    (∀ pos ∈ ["C"], (⟨1, (100:ℚ), ["C"]⟩ : RPlayer) ∉
      get_optimal_lineup [⟨1, some 100, ["C"], []⟩, ⟨2, none, ["C"], []⟩]
        [("C", 1)] pos) := by
  refine ⟨by decide, by decide⟩

/-- C5 amended.  The assignment boundary substitutes the fixed sentinel 60
for a missing `total_rank` (a present rank is kept unchanged); under that
substitution an unranked player is still assignable to an eligible open
slot but is keyed exactly at 60 in every pass: behind every ranked player
with `total_rank` below 60 and ahead of every ranked player above 60.  The
final conjunct exhibits assignability and the ordering: with capacities
{C: 2} and ranks 70, null, 50 the unranked player starts, after the rank-50
player and displacing the rank-70 player. -/
theorem sentinel_sixty_amended :
    (∀ p : Player, p.total_rank = none → (processPlayer p).total_rank = 60) ∧
    (∀ (p : Player) (r : ℚ), p.total_rank = some r →
      (processPlayer p).total_rank = r) ∧
    (∀ (p u : Player) (r : ℚ), p.total_rank = some r → u.total_rank = none →
      r < 60 →
      (processPlayer p).total_rank < (processPlayer u).total_rank) ∧
    (∀ (p u : Player) (r : ℚ), p.total_rank = some r → u.total_rank = none →
      60 < r →
      (processPlayer u).total_rank < (processPlayer p).total_rank) ∧
    (get_optimal_lineup
        [⟨1, some 70, ["C"], []⟩, ⟨2, none, ["C"], []⟩, ⟨3, some 50, ["C"], []⟩]
        [("C", 2)] "C" = [⟨3, 50, ["C"]⟩, ⟨2, 60, ["C"]⟩]) := by
  refine ⟨?_, ?_, ?_, ?_, by decide⟩
  · intro p h
    unfold processPlayer
    rw [h]
    rfl
  · intro p r h
    unfold processPlayer
    rw [h]
    rfl
  · intro p u r hp hu hr
    unfold processPlayer
    rw [hp, hu]
    simpa using hr
  · intro p u r hp hu hr
    unfold processPlayer
    rw [hp, hu]
    simpa using hr

/-- C5 witness: a rank-59.5 player is keyed ahead of an unranked player and
a rank-60.5 player behind it. -/
theorem sentinel_sixty_amended_witness :
    (processPlayer ⟨1, some (119/2), ["C"], []⟩).total_rank
      < (processPlayer ⟨2, none, ["C"], []⟩).total_rank ∧
    (processPlayer ⟨2, none, ["C"], []⟩).total_rank
      < (processPlayer ⟨3, some (121/2), ["C"], []⟩).total_rank ∧
    (processPlayer ⟨2, none, ["C"], []⟩).total_rank = 60 := by
  refine ⟨?_, ?_, ?_⟩
  · exact sentinel_sixty_amended.2.2.1 ⟨1, some (119/2), ["C"], []⟩
      ⟨2, none, ["C"], []⟩ (119/2) rfl rfl (by norm_num)
  · exact sentinel_sixty_amended.2.2.2.1 ⟨3, some (121/2), ["C"], []⟩
      ⟨2, none, ["C"], []⟩ (121/2) rfl rfl (by norm_num)
  · exact sentinel_sixty_amended.1 ⟨2, none, ["C"], []⟩ rfl

/-! ## Frame property: the input players are never mutated (claim C10) -/

/-- C10.  The entry copy loop only allocates: every pre-existing heap cell
is unchanged (so a caller's player objects keep their original
`total_rank`, including `null`), every returned address is fresh, and the
records the algorithm goes on to use are exactly the sentinel-substituted
copies (`processPlayer`) of the input records — the passes and pass-3 swaps
manipulate only lineup lists built from those copies, never the originals. -/
theorem processPlayersHeap_eq (heap : List Player) (addrs : List Nat) :
    processPlayersHeap heap addrs = addrs.foldl copyStep (heap, []) := rfl

theorem copy_go (heap : List Player) :
    ∀ (l : List Nat) (acc : List Player × List Nat),
      (∀ a ∈ l, a < heap.length) →
      (∀ i, i < heap.length → acc.1[i]? = heap[i]?) →
      heap.length ≤ acc.1.length →
      (∀ i, i < acc.1.length → (l.foldl copyStep acc).1[i]? = acc.1[i]?) ∧
      (∃ t, (l.foldl copyStep acc).2 = acc.2 ++ t ∧
        (∀ a ∈ t, acc.1.length ≤ a) ∧
        t.map (fun a => (l.foldl copyStep acc).1[a]?)
          = l.map (fun a => heap[a]?.map
              (fun p => { p with total_rank := some (p.total_rank.getD 60) }))) := by
  intro l
  induction l with
  | nil =>
      intro acc _ _ _
      exact ⟨fun i _ => rfl, [], (List.append_nil _).symm, by simp, by simp⟩
  | cons a l' ih =>
      intro acc hl hheap hlen
      have ha : a < heap.length := hl a (List.mem_cons_self a l')
      have hsome : heap[a]? = some heap[a] :=
        List.getElem?_eq_getElem ha
      have hacc : acc.1[a]? = some heap[a] := by rw [hheap a ha, hsome]
      have hstep : copyStep acc a =
          (acc.1 ++ [{ heap[a] with
            total_rank := some (heap[a].total_rank.getD 60) }],
           acc.2 ++ [acc.1.length]) := by
        unfold copyStep
        rw [hacc]
      rw [List.foldl_cons, hstep]
      set p' : Player :=
        { heap[a] with total_rank := some (heap[a].total_rank.getD 60) } with hp'
      have hheap' : ∀ i, i < heap.length → (acc.1 ++ [p'])[i]? = heap[i]? := by
        intro i hi
        rw [List.getElem?_append_left (Nat.lt_of_lt_of_le hi hlen)]
        exact hheap i hi
      have hlen' : heap.length ≤ (acc.1 ++ [p']).length := by
        rw [List.length_append]
        exact Nat.le_trans hlen (Nat.le_add_right _ _)
      obtain ⟨hA, t', ht'dec, ht'ge, ht'map⟩ :=
        ih (acc.1 ++ [p'], acc.2 ++ [acc.1.length])
          (fun b hb => hl b (List.mem_cons_of_mem a hb)) hheap' hlen'
      refine ⟨?_, acc.1.length :: t', ?_, ?_, ?_⟩
      · intro i hi
        have hi' : i < (acc.1 ++ [p']).length := by
          rw [List.length_append]
          exact Nat.lt_of_lt_of_le hi (Nat.le_add_right _ _)
        rw [hA i hi', List.getElem?_append_left hi]
      · rw [ht'dec, List.append_assoc]
        rfl
      · intro b hb
        rcases List.mem_cons.mp hb with rfl | hb'
        · exact Nat.le_refl _
        · have := ht'ge b hb'
          rw [List.length_append] at this
          exact Nat.le_trans (Nat.le_add_right _ _) this
      · rw [List.map_cons, ht'map, List.map_cons]
        congr 1
        have hin : acc.1.length < (acc.1 ++ [p']).length := by
          rw [List.length_append, List.length_singleton]
          exact Nat.lt_succ_self _
        rw [hA acc.1.length hin,
          List.getElem?_append_right (Nat.le_refl _)]
        simp [hsome]

theorem get_optimal_lineup_no_mutation (heap : List Player) (addrs : List Nat)
    (hvalid : ∀ a ∈ addrs, a < heap.length) :
    (∀ i, i < heap.length →
      (processPlayersHeap heap addrs).1[i]? = heap[i]?) ∧
    (∀ a ∈ (processPlayersHeap heap addrs).2, heap.length ≤ a) ∧
    ((processPlayersHeap heap addrs).2.map
        (fun a => (processPlayersHeap heap addrs).1[a]?)
      = addrs.map (fun a => heap[a]?.map
          (fun p => { p with total_rank := some (p.total_rank.getD 60) }))) ∧
    (∀ p : Player, ({ p with total_rank := some (p.total_rank.getD 60) })
      = ⟨p.player_id, some (processPlayer p).total_rank, p.positions,
         p.gameDates⟩) := by
  obtain ⟨hA, t, htdec, htge, htmap⟩ :=
    copy_go heap addrs (heap, []) hvalid (fun i _ => rfl) (Nat.le_refl _)
  rw [processPlayersHeap_eq]
  refine ⟨hA, ?_, ?_, fun p => rfl⟩
  · intro a ha
    rw [htdec, List.nil_append] at ha
    exact htge a ha
  · rw [htdec, List.nil_append]
    exact htmap

/-- C10 witness: a caller's player object with a null `total_rank` is
unchanged at its original heap address after the copy loop. -/
theorem get_optimal_lineup_no_mutation_witness :
    (processPlayersHeap [⟨1, none, ["C"], [3]⟩] [0]).1[0]?
      = some ⟨1, none, ["C"], [3]⟩ := by
  have h := (get_optimal_lineup_no_mutation [⟨1, none, ["C"], [3]⟩] [0]
    (by decide)).1 0 (by decide)
  rw [h]
  rfl

/-! ## Simulated-move overlays (claim C6) -/

theorem mem_dailyRoster {active : List Player} {moves : List SimMove}
    {day : Nat} {x : Player} :
    x ∈ dailyRoster active moves day ↔
      (x ∈ active ∧ ∀ m ∈ moves, m.date ≤ day →
        m.dropped.player_id ≠ x.player_id) ∨
      (∃ m ∈ moves, m.date ≤ day ∧ m.added = x) := by
  unfold dailyRoster
  rw [List.mem_append, List.mem_filter]
  constructor
  · rintro (⟨hx, hpred⟩ | hmap)
    · refine Or.inl ⟨hx, fun m hm hmd heq => ?_⟩
      rw [decide_eq_true_eq] at hpred
      apply hpred
      rw [List.mem_map]
      refine ⟨m, ?_, heq⟩
      rw [List.mem_filter]
      exact ⟨hm, by simpa using hmd⟩
    · obtain ⟨m, hmf, hmx⟩ := List.mem_map.mp hmap
      rw [List.mem_filter] at hmf
      exact Or.inr ⟨m, hmf.1, by simpa using hmf.2, hmx⟩
  · rintro (⟨hx, hnone⟩ | ⟨m, hmmem, hmd, hmx⟩)
    · refine Or.inl ⟨hx, ?_⟩
      rw [decide_eq_true_eq]
      intro hmem
      rw [List.mem_map] at hmem
      obtain ⟨m, hmf, hmid⟩ := hmem
      rw [List.mem_filter] at hmf
      exact hnone m hmf.1 (by simpa using hmf.2) hmid
    · refine Or.inr (List.mem_map.mpr ⟨m, ?_, hmx⟩)
      rw [List.mem_filter]
      exact ⟨hmmem, by simpa using hmd⟩

theorem mem_playersToday {active : List Player} {moves : List SimMove}
    {day : Nat} {x : Player} :
    x ∈ playersToday active moves day ↔
      x ∈ dailyRoster active moves day ∧ day ∈ x.gameDates := by
  unfold playersToday
  rw [List.mem_filter]
  simp

/-- C6.  For a simulated move with effective date `D` dropping `X` and
adding `Y` (with `X` on and `Y` off the persisted roster, no other move
touching either, and both playing on the evaluated day): strictly before
`D` the daily eligible pool contains `X` and excludes `Y`; on or after `D`
it contains `Y` and excludes `X`; and membership in the pool is unchanged
under any reordering of the move list.  The overlay is a pure function of
the persisted roster, which it never modifies. -/
theorem simulated_move_overlay (active : List Player) (moves : List SimMove)
    (m : SimMove) (day : Nat) (hm : m ∈ moves) (hX : m.dropped ∈ active)
    (hY : m.added ∉ active)
    (honlyX : ∀ m' ∈ moves, m'.dropped.player_id = m.dropped.player_id → m' = m)
    (hnoaddX : ∀ m' ∈ moves, m'.added ≠ m.dropped)
    (honlyY : ∀ m' ∈ moves, m'.added = m.added → m' = m)
    (hXplays : day ∈ m.dropped.gameDates) (hYplays : day ∈ m.added.gameDates) :
    (day < m.date →
      m.dropped ∈ playersToday active moves day ∧
      m.added ∉ playersToday active moves day) ∧
    (m.date ≤ day →
      m.added ∈ playersToday active moves day ∧
      m.dropped ∉ playersToday active moves day) ∧
    (∀ moves' : List SimMove, List.Perm moves moves' → ∀ x : Player,
      x ∈ playersToday active moves day ↔
        x ∈ playersToday active moves' day) := by
  refine ⟨?_, ?_, ?_⟩
  · intro hday
    constructor
    · rw [mem_playersToday]
      refine ⟨mem_dailyRoster.mpr (Or.inl ⟨hX, fun m' hm' hd' heq => ?_⟩),
        hXplays⟩
      have := honlyX m' hm' heq
      subst this
      exact absurd hd' (Nat.not_le_of_lt hday)
    · rw [mem_playersToday]
      rintro ⟨hmem, -⟩
      rcases mem_dailyRoster.mp hmem with ⟨hmem', -⟩ | ⟨m', hm', hd', heq⟩
      · exact hY hmem'
      · have := honlyY m' hm' heq
        subst this
        exact absurd hd' (Nat.not_le_of_lt hday)
  · intro hday
    constructor
    · rw [mem_playersToday]
      exact ⟨mem_dailyRoster.mpr (Or.inr ⟨m, hm, hday, rfl⟩), hYplays⟩
    · rw [mem_playersToday]
      rintro ⟨hmem, -⟩
      rcases mem_dailyRoster.mp hmem with ⟨-, hnone⟩ | ⟨m', hm', -, heq⟩
      · exact hnone m hm hday rfl
      · exact hnoaddX m' hm' heq
  · intro moves' hperm x
    rw [mem_playersToday, mem_playersToday, mem_dailyRoster, mem_dailyRoster]
    constructor
    · rintro ⟨h1 | ⟨m', hm', hd', heq⟩, h2⟩
      · exact ⟨Or.inl ⟨h1.1, fun m' hm' => h1.2 m' (hperm.mem_iff.mpr hm')⟩, h2⟩
      · exact ⟨Or.inr ⟨m', hperm.mem_iff.mp hm', hd', heq⟩, h2⟩
    · rintro ⟨h1 | ⟨m', hm', hd', heq⟩, h2⟩
      · exact ⟨Or.inl ⟨h1.1, fun m' hm' => h1.2 m' (hperm.mem_iff.mp hm')⟩, h2⟩
      · exact ⟨Or.inr ⟨m', hperm.mem_iff.mpr hm', hd', heq⟩, h2⟩

/-- C6 witness: with one move (date 5, drop id 1, add id 2) on a roster
containing only player 1, the day-3 pool has player 1 and not player 2,
and the day-7 pool has player 2 and not player 1. -/
theorem simulated_move_overlay_witness :
    ((⟨1, some 1, ["C"], [3, 7]⟩ : Player) ∈
      playersToday [⟨1, some 1, ["C"], [3, 7]⟩]
        [⟨5, ⟨1, some 1, ["C"], [3, 7]⟩, ⟨2, some 2, ["D"], [3, 7]⟩⟩] 3 ∧
     (⟨2, some 2, ["D"], [3, 7]⟩ : Player) ∉
      playersToday [⟨1, some 1, ["C"], [3, 7]⟩]
        [⟨5, ⟨1, some 1, ["C"], [3, 7]⟩, ⟨2, some 2, ["D"], [3, 7]⟩⟩] 3) ∧
    ((⟨2, some 2, ["D"], [3, 7]⟩ : Player) ∈
      playersToday [⟨1, some 1, ["C"], [3, 7]⟩]
        [⟨5, ⟨1, some 1, ["C"], [3, 7]⟩, ⟨2, some 2, ["D"], [3, 7]⟩⟩] 7 ∧
     (⟨1, some 1, ["C"], [3, 7]⟩ : Player) ∉
      playersToday [⟨1, some 1, ["C"], [3, 7]⟩]
        [⟨5, ⟨1, some 1, ["C"], [3, 7]⟩, ⟨2, some 2, ["D"], [3, 7]⟩⟩] 7) := by
  constructor
  · exact (simulated_move_overlay [⟨1, some 1, ["C"], [3, 7]⟩]
      [⟨5, ⟨1, some 1, ["C"], [3, 7]⟩, ⟨2, some 2, ["D"], [3, 7]⟩⟩]
      ⟨5, ⟨1, some 1, ["C"], [3, 7]⟩, ⟨2, some 2, ["D"], [3, 7]⟩⟩ 3
      (by decide) (by decide) (by decide) (by decide) (by decide) (by decide)
      (by decide) (by decide)).1 (by decide)
  · exact (simulated_move_overlay [⟨1, some 1, ["C"], [3, 7]⟩]
      [⟨5, ⟨1, some 1, ["C"], [3, 7]⟩, ⟨2, some 2, ["D"], [3, 7]⟩⟩]
      ⟨5, ⟨1, some 1, ["C"], [3, 7]⟩, ⟨2, some 2, ["D"], [3, 7]⟩⟩ 7
      (by decide) (by decide) (by decide) (by decide) (by decide) (by decide)
      (by decide) (by decide)).2.1 (by decide)

/-! ## GAA recomputation from summed counting stats (claim C7) -/

theorem fixLiveStats_TOIG (s : GStats) :
    (fixLiveStats s).TOIG =
      if s.SHO > 0 then s.TOIG + s.SHO * 60 else s.TOIG := rfl

theorem fixLiveStats_GAA_eq (s : GStats) :
    (fixLiveStats s).GAA =
      if (fixLiveStats s).TOIG > 0 then s.GA * 60 / (fixLiveStats s).TOIG
      else 0 := rfl

theorem rowFinalize_GAA_eq (s : GStats) :
    (rowFinalize s).GAA =
      roundTo 2 (if s.TOIG > 0 then s.GA * 60 / s.TOIG else 0) := rfl

section

attribute [local semireducible] Rat.add Rat.mul Rat.inv Rat.sub

/-- C7 counterexample.  A rest-of-week aggregate with goals-against 1 and
time-on-ice 7 (positive) reports a GAA of 8.57 — the ratio rounded to two
decimals — not the exact ratio 60/7 the claim asserts. -/
theorem gaa_ratio_cex :
    (⟨1, 7, 0, 0, 0, 0, 0⟩ : GStats).TOIG > 0 ∧
    (rowFinalize ⟨1, 7, 0, 0, 0, 0, 0⟩).GAA = 857 / 100 ∧
    (rowFinalize ⟨1, 7, 0, 0, 0, 0, 0⟩).GAA ≠
      (⟨1, 7, 0, 0, 0, 0, 0⟩ : GStats).GA * 60 /
        (⟨1, 7, 0, 0, 0, 0, 0⟩ : GStats).TOIG := by
  refine ⟨by decide, by decide, by decide⟩

/-- C7 amended.  Live GAA is recomputed exactly as `(G*60)/T` from the
summed goals-against and the shutout-corrected summed time-on-ice, and is 0
when that corrected total is 0; the rest-of-week reported GAA is the same
ratio of the summed counting stats *rounded to two decimals* (0 when the
total time-on-ice is 0); and both are independent of the incoming `GAA` and
`SVpct` fields — the sums of per-day ratio values, which the code discards
rather than reports.  No input divides by zero: the zero-denominator case
is defined as 0. -/
theorem gaa_ratio_amended :
    (∀ s : GStats,
      ((fixLiveStats s).TOIG > 0 →
        (fixLiveStats s).GAA = s.GA * 60 / (fixLiveStats s).TOIG) ∧
      ((fixLiveStats s).TOIG = 0 → (fixLiveStats s).GAA = 0)) ∧
    (∀ (s : GStats) (x y : ℚ),
      (fixLiveStats { s with GAA := x, SVpct := y }).GAA
        = (fixLiveStats s).GAA) ∧
    (∀ s : GStats,
      (s.TOIG > 0 → (rowFinalize s).GAA = roundTo 2 (s.GA * 60 / s.TOIG)) ∧
      (s.TOIG = 0 → (rowFinalize s).GAA = 0)) ∧
    (∀ (s : GStats) (x y : ℚ),
      (rowFinalize { s with GAA := x, SVpct := y }).GAA
        = (rowFinalize s).GAA) ∧
    (∀ days1 days2 : List GStats,
      (sumStats days1).GA = (sumStats days2).GA →
      (sumStats days1).TOIG = (sumStats days2).TOIG →
      (sumStats days1).SHO = (sumStats days2).SHO →
      (fixLiveStats (sumStats days1)).GAA
        = (fixLiveStats (sumStats days2)).GAA) := by
  refine ⟨?_, ?_, ?_, ?_, ?_⟩
  · intro s
    constructor
    · intro hpos
      rw [fixLiveStats_GAA_eq, if_pos hpos]
    · intro hzero
      rw [fixLiveStats_GAA_eq, hzero]
      simp
  · intro s x y
    rfl
  · intro s
    constructor
    · intro hpos
      rw [rowFinalize_GAA_eq, if_pos hpos]
    · intro hzero
      rw [rowFinalize_GAA_eq, hzero, if_neg (by norm_num)]
      decide
  · intro s x y
    rfl
  · intro days1 days2 hga htoi hsho
    rw [fixLiveStats_GAA_eq, fixLiveStats_GAA_eq,
      fixLiveStats_TOIG, fixLiveStats_TOIG, hga, htoi, hsho]

/-- C7 witness: with summed goals-against 2 and time-on-ice 120, the
rest-of-week reported GAA is the rounded ratio, which evaluates to 1.0,
regardless of the discarded summed daily GAA field (here 999). -/
theorem gaa_ratio_amended_witness :
    (rowFinalize ⟨2, 120, 0, 0, 0, 999, 999⟩).GAA
      = roundTo 2 ((2:ℚ) * 60 / 120) ∧
    (rowFinalize ⟨2, 120, 0, 0, 0, 999, 999⟩).GAA = 1 := by
  constructor
  · exact (gaa_ratio_amended.2.2.1 ⟨2, 120, 0, 0, 0, 999, 999⟩).1 (by decide)
  · decide

end

/-! ## Exactness of the value-based solver (claim C8) -/

theorem rosterValue_cons (p : VPlayer) (pos : String)
    (r : List (VPlayer × String)) :
    rosterValue ((p, pos) :: r) = p.marginal_value + rosterValue r := by
  unfold rosterValue
  rw [List.map_cons, List.sum_cons]

theorem countPos_cons (p : VPlayer) (pos : String)
    (r : List (VPlayer × String)) (q : String) :
    countPos ((p, pos) :: r) q = countPos r q + if pos = q then 1 else 0 := by
  unfold countPos
  rw [List.filter_cons]
  by_cases h : pos = q
  · rw [if_pos h]
    simp [h]
  · rw [if_neg h]
    simp [h]

theorem countPos_pos {r : List (VPlayer × String)} {pos : String}
    (h : 0 < countPos r pos) : ∃ pr ∈ r, pr.2 = pos := by
  unfold countPos at h
  cases hf : r.filter (fun pr => pr.2 = pos) with
  | nil => rw [hf] at h; simp at h
  | cons x xs =>
      have hx : x ∈ r.filter (fun pr => decide (pr.2 = pos)) :=
        hf ▸ List.mem_cons_self x xs
      rw [List.mem_filter] at hx
      exact ⟨x, hx.1, by simpa using hx.2⟩

theorem lookup_decrV (slots : VSlots) (pos q : String) :
    (decrV slots pos).lookup q =
      (slots.lookup q).map (fun v => if q = pos then v - 1 else v) := by
  induction slots with
  | nil => rfl
  | cons kv t ih =>
      rcases kv with ⟨k, v⟩
      show List.lookup q ((if k = pos then (k, v - 1) else (k, v)) :: decrV t pos)
        = (List.lookup q ((k, v) :: t)).map (fun v => if q = pos then v - 1 else v)
      by_cases hkp : k = pos
      · rw [if_pos hkp, List.lookup_cons, List.lookup_cons]
        cases hbeq : q == k with
        | true =>
            have hqp : q = pos := (eq_of_beq hbeq).trans hkp
            simp [hqp]
        | false => exact ih
      · rw [if_neg hkp, List.lookup_cons, List.lookup_cons]
        cases hbeq : q == k with
        | true =>
            have hqp : ¬ q = pos := fun h =>
              hkp ((eq_of_beq hbeq).symm.trans h)
            simp [hqp]
        | false => exact ih

theorem capV_decrV (slots : VSlots) (pos q : String) :
    capV (decrV slots pos) q =
      if q = pos then capV slots q - 1 else capV slots q := by
  unfold capV
  rw [lookup_decrV]
  cases slots.lookup q with
  | none => split <;> rfl
  | some v => split <;> rfl

theorem capV_pos_isSome {slots : VSlots} {pos : String}
    (h : 0 < capV slots pos) : (slots.lookup pos).isSome = true := by
  unfold capV at h
  cases hl : slots.lookup pos with
  | none => rw [hl] at h; simp at h
  | some v => rfl

theorem solve_skaters_cons (p : VPlayer) (rest : List VPlayer)
    (slots : VSlots) :
    solve_skaters (p :: rest) slots =
      (p.positions.filter (fun q => (slots.lookup q).isSome)).foldl
        (fun best pos =>
          if capV slots pos > 0 then
            if p.marginal_value + (solve_skaters rest (decrV slots pos)).1
                > best.1 then
              (p.marginal_value + (solve_skaters rest (decrV slots pos)).1,
               (p, pos) :: (solve_skaters rest (decrV slots pos)).2)
            else best
          else best)
        (solve_skaters rest slots) := rfl

theorem foldl_best_ge_init
    (step : ℚ × List (VPlayer × String) → String → ℚ × List (VPlayer × String))
    (hstep : ∀ b a, b.1 ≤ (step b a).1) :
    ∀ (l : List String) (init : ℚ × List (VPlayer × String)),
      init.1 ≤ (l.foldl step init).1 := by
  intro l
  induction l with
  | nil => intro init; exact le_refl _
  | cons x xs ih =>
      intro init
      exact le_trans (hstep init x) (ih (step init x))

theorem foldl_best_ge_cand
    (step : ℚ × List (VPlayer × String) → String → ℚ × List (VPlayer × String))
    (v : String → ℚ) (P : String → Prop)
    (hstep : ∀ b a, b.1 ≤ (step b a).1)
    (hcand : ∀ b a, P a → v a ≤ (step b a).1) :
    ∀ (l : List String) (init : ℚ × List (VPlayer × String)) (a : String),
      a ∈ l → P a → v a ≤ (l.foldl step init).1 := by
  intro l
  induction l with
  | nil => intro init a ha; exact absurd ha (List.not_mem_nil a)
  | cons x xs ih =>
      intro init a ha hP
      rcases List.mem_cons.mp ha with rfl | ha'
      · exact le_trans (hcand init a hP)
          (foldl_best_ge_init step hstep xs (step init a))
      · exact ih (step init x) a ha' hP

theorem solve_skaters_sound :
    ∀ (skaters : List VPlayer) (slots : VSlots),
      Sel skaters (solve_skaters skaters slots).2 ∧
      CapsOK slots (solve_skaters skaters slots).2 ∧
      rosterValue (solve_skaters skaters slots).2
        = (solve_skaters skaters slots).1 := by
  intro skaters
  induction skaters with
  | nil =>
      intro slots
      exact ⟨Sel.nil, fun pr hpr => absurd hpr (List.not_mem_nil pr), rfl⟩
  | cons p rest ih =>
      intro slots
      rw [solve_skaters_cons]
      refine foldl_induction _ _ _
        (fun (best : ℚ × List (VPlayer × String)) =>
          Sel (p :: rest) best.2 ∧ CapsOK slots best.2 ∧
            rosterValue best.2 = best.1)
        ⟨Sel.skip (ih slots).1, (ih slots).2.1, (ih slots).2.2⟩ ?_
      intro b pos hposmem hb
      dsimp only
      split
      · rename_i hcap
        split
        · rename_i hgt
          obtain ⟨hsel', hcaps', hval'⟩ := ih (decrV slots pos)
          have hposmem' := (List.mem_filter.mp hposmem).1
          refine ⟨Sel.take hposmem' hsel', ?_, ?_⟩
          · intro pr hpr
            rcases List.mem_cons.mp hpr with rfl | hpr'
            · dsimp only
              rw [countPos_cons, if_pos rfl]
              have hle : countPos (solve_skaters rest (decrV slots pos)).2 pos
                  ≤ capV (decrV slots pos) pos := by
                by_cases h0 :
                    0 < countPos (solve_skaters rest (decrV slots pos)).2 pos
                · obtain ⟨pr', hpr', hpr'pos⟩ := countPos_pos h0
                  have := hcaps' pr' hpr'
                  rw [hpr'pos] at this
                  exact this
                · omega
              rw [capV_decrV, if_pos rfl] at hle
              omega
            · rw [countPos_cons]
              have hthis := hcaps' pr hpr'
              rw [capV_decrV] at hthis
              by_cases hq : pr.2 = pos
              · rw [if_pos hq.symm, if_pos hq] at *
                have hcap' : 0 < capV slots pr.2 := by rw [hq]; exact hcap
                omega
              · rw [if_neg (fun h => hq h.symm)]
                rw [if_neg hq] at hthis
                omega
          · rw [rosterValue_cons, hval']
        · exact hb
      · exact hb

theorem solve_skaters_opt :
    ∀ (skaters : List VPlayer) (slots : VSlots)
      (r : List (VPlayer × String)),
      Sel skaters r → CapsOK slots r →
      rosterValue r ≤ (solve_skaters skaters slots).1 := by
  intro skaters
  induction skaters with
  | nil =>
      intro slots r hsel _
      cases hsel
      exact le_refl _
  | cons p rest ih =>
      intro slots r hsel hcaps
      rw [solve_skaters_cons]
      have hstep : ∀ (b : ℚ × List (VPlayer × String)) (a : String),
          b.1 ≤ ((fun best pos =>
            if capV slots pos > 0 then
              if p.marginal_value + (solve_skaters rest (decrV slots pos)).1
                  > best.1 then
                (p.marginal_value + (solve_skaters rest (decrV slots pos)).1,
                 (p, pos) :: (solve_skaters rest (decrV slots pos)).2)
              else best
            else best) b a).1 := by
        intro b a
        dsimp only
        split
        · split
          · rename_i hgt; exact le_of_lt hgt
          · exact le_refl _
        · exact le_refl _
      cases hsel with
      | skip hrest =>
          exact le_trans (ih slots r hrest hcaps)
            (foldl_best_ge_init _ hstep _ _)
      | take hposmem hrest =>
          rename_i rest' pos
          have hcnt : 0 < countPos ((p, pos) :: rest') pos := by
            rw [countPos_cons, if_pos rfl]
            omega
          have hcap : 0 < capV slots pos :=
            Nat.lt_of_lt_of_le hcnt (hcaps (p, pos) (List.mem_cons_self _ _))
          have hisSome := capV_pos_isSome hcap
          have hmemfil :
              pos ∈ p.positions.filter (fun q => (slots.lookup q).isSome) :=
            List.mem_filter.mpr ⟨hposmem, hisSome⟩
          have hcaps' : CapsOK (decrV slots pos) rest' := by
            intro pr hpr
            rw [capV_decrV]
            have hcr := hcaps pr (List.mem_cons_of_mem _ hpr)
            rw [countPos_cons] at hcr
            by_cases hq : pr.2 = pos
            · rw [if_pos hq]
              rw [if_pos hq.symm] at hcr
              omega
            · rw [if_neg hq]
              rw [if_neg (fun h => hq h.symm)] at hcr
              omega
          have hrec := ih (decrV slots pos) rest' hrest hcaps'
          have hcand2 : rosterValue ((p, pos) :: rest')
              ≤ p.marginal_value + (solve_skaters rest (decrV slots pos)).1 := by
            rw [rosterValue_cons]
            exact add_le_add_left hrec _
          refine le_trans hcand2
            (foldl_best_ge_cand _
              (fun pos' =>
                p.marginal_value + (solve_skaters rest (decrV slots pos')).1)
              (fun pos' => 0 < capV slots pos') hstep ?_ _ _ pos hmemfil hcap)
          intro b a hPa
          dsimp only
          rw [if_pos hPa]
          split
          · exact le_refl _
          · rename_i hngt
            exact le_of_not_lt hngt

theorem sortByValueDesc_sorted (l : List VPlayer) :
    List.Pairwise (fun a b => b.marginal_value ≤ a.marginal_value)
      (sortByValueDesc l) :=
  List.sorted_insertionSort
    (fun a b : VPlayer => b.marginal_value ≤ a.marginal_value) l

/-- C8.  The skater assignment returned by `find_optimal_lineup` is exactly
optimal: it is a well-formed selection (eligibility respected), it respects
every per-position capacity, its summed `marginal_value` equals the
solver's score, and no feasible selection scores more (memoization cannot
change this: the memo caches a pure function of exactly its key).  The
goalie slots take the first `n` goalies of the value-descending order:
every chosen goalie's value is at least every unchosen goalie's, and the
number chosen is `min n (number of goalies)`. -/
theorem find_optimal_lineup_exact (active : List VPlayer) (slots : VSlots)
    (skaters goalies : List VPlayer) (sslots : VSlots) (n : Nat)
    (hsk : skaters = (sortByValueDesc active).filter
      (fun p => "G" ∉ p.positions))
    (hgo : goalies = (sortByValueDesc active).filter
      (fun p => "G" ∈ p.positions))
    (hss : sslots = slots.filter (fun kv => kv.1 ≠ "G"))
    (hn : n = (slots.lookup "G").getD 0) :
    find_optimal_lineup active slots
      = (solve_skaters skaters sslots).2
        ++ (goalies.take n).map (fun g => (g, "G")) ∧
    Sel skaters (solve_skaters skaters sslots).2 ∧
    CapsOK sslots (solve_skaters skaters sslots).2 ∧
    rosterValue (solve_skaters skaters sslots).2
      = (solve_skaters skaters sslots).1 ∧
    (∀ r, Sel skaters r → CapsOK sslots r →
      rosterValue r ≤ (solve_skaters skaters sslots).1) ∧
    (∀ g ∈ goalies.take n, ∀ g' ∈ goalies.drop n,
      g'.marginal_value ≤ g.marginal_value) ∧
    (goalies.take n).length = min n goalies.length := by
  subst hsk hgo hss hn
  obtain ⟨hsel, hcaps, hval⟩ := solve_skaters_sound _ _
  refine ⟨rfl, hsel, hcaps, hval, fun r hr hc => solve_skaters_opt _ _ r hr hc,
    ?_, List.length_take _ _⟩
  intro g hg g' hg'
  have hpair : List.Pairwise (fun a b => b.marginal_value ≤ a.marginal_value)
      ((sortByValueDesc active).filter (fun p => "G" ∈ p.positions)) :=
    List.Pairwise.filter _ (sortByValueDesc_sorted active)
  set gl := (sortByValueDesc active).filter (fun p => "G" ∈ p.positions)
    with hgl
  have hsplit : gl = gl.take ((slots.lookup "G").getD 0)
      ++ gl.drop ((slots.lookup "G").getD 0) :=
    (List.take_append_drop _ gl).symm
  rw [hsplit] at hpair
  exact (List.pairwise_append.mp hpair).2.2 g hg g' hg'

/-- C8 witness: a feasible alternative (starting the value-4 player at C)
scores no more than the solver's result on that input. -/
theorem find_optimal_lineup_exact_witness :
    rosterValue [(⟨2, 4, ["C"]⟩, "C")]
      ≤ (solve_skaters
          ((sortByValueDesc [⟨1, 5, ["C", "LW"]⟩, ⟨2, 4, ["C"]⟩]).filter
            (fun p => "G" ∉ p.positions))
          ([("C", 1)].filter (fun kv => kv.1 ≠ "G"))).1 := by
  refine (find_optimal_lineup_exact [⟨1, 5, ["C", "LW"]⟩, ⟨2, 4, ["C"]⟩]
    [("C", 1)] _ _ _ _ rfl rfl rfl rfl).2.2.2.2.1
    [(⟨2, 4, ["C"]⟩, "C")] ?_ ?_
  · exact Sel.skip (Sel.take (by decide) Sel.nil)
  · decide

/-! ## The unused-slot report (claim C9) -/

theorem any_congr {α : Type} {l : List α} {f g : α → Bool}
    (h : ∀ x ∈ l, f x = g x) : l.any f = l.any g := by
  induction l with
  | nil => rfl
  | cons x xs ih =>
      rw [List.any_cons, List.any_cons, h x (List.mem_cons_self x xs),
        ih (fun y hy => h y (List.mem_cons_of_mem x hy))]

theorem lookup_map_pair (f : String → SlotVal) :
    ∀ (l : List String) (pos : String), pos ∈ l →
      (l.map (fun p => (p, f p))).lookup pos = some (f pos) := by
  intro l
  induction l with
  | nil => intro pos h; exact absurd h (List.not_mem_nil pos)
  | cons a t ih =>
      intro pos h
      rw [List.map_cons, List.lookup_cons]
      cases hbeq : pos == a with
      | true =>
          have : pos = a := eq_of_beq hbeq
          rw [this]
      | false =>
          rcases List.mem_cons.mp h with rfl | h'
          · rw [beq_self_eq_true pos] at hbeq
            exact absurd hbeq (by simp)
          · exact ih pos h'

theorem lookup_map_pair_none (f : String → SlotVal) :
    ∀ (l : List String) (pos : String), pos ∉ l →
      (l.map (fun p => (p, f p))).lookup pos = none := by
  intro l
  induction l with
  | nil => intro pos _; rfl
  | cons a t ih =>
      intro pos h
      rw [List.map_cons, List.lookup_cons]
      cases hbeq : pos == a with
      | true =>
          have : pos = a := eq_of_beq hbeq
          exact absurd (this ▸ List.mem_cons_self a t) h
      | false =>
          exact ih pos (fun h' => h (List.mem_cons_of_mem a h'))

theorem lookup_map_set (slots : List (String × SlotVal)) (k : String)
    (v' : SlotVal) (q : String) :
    (slots.map (fun kv => if kv.1 = k then (kv.1, v') else kv)).lookup q =
      if q = k then (slots.lookup q).map (fun _ => v')
      else slots.lookup q := by
  induction slots with
  | nil => split <;> rfl
  | cons kv t ih =>
      rcases kv with ⟨a, b⟩
      show List.lookup q ((if a = k then (a, v') else (a, b)) ::
          t.map (fun kv => if kv.1 = k then (kv.1, v') else kv))
        = if q = k then (List.lookup q ((a, b) :: t)).map (fun _ => v')
          else List.lookup q ((a, b) :: t)
      by_cases hak : a = k
      · rw [if_pos hak, List.lookup_cons, List.lookup_cons]
        cases hbeq : q == a with
        | true =>
            have hqk : q = k := (eq_of_beq hbeq).trans hak
            simp [hqk]
        | false => exact ih
      · rw [if_neg hak, List.lookup_cons, List.lookup_cons]
        cases hbeq : q == a with
        | true =>
            have hqk : ¬ q = k := fun h => hak ((eq_of_beq hbeq).symm.trans h)
            simp [hqk]
        | false => exact ih

theorem flagStep_cases (lineup : String → List RPlayer)
    (slots : List (String × SlotVal)) (k : String) :
    (flagStep lineup slots k = slots ∧
      ¬(k ∈ positionOrder ∧ slots.lookup k = some (SlotVal.num 0) ∧
        starCond lineup slots k = true)) ∨
    (k ∈ positionOrder ∧ slots.lookup k = some (SlotVal.num 0) ∧
      starCond lineup slots k = true ∧
      flagStep lineup slots k =
        slots.map (fun kv => if kv.1 = k then (kv.1, SlotVal.starred 0) else kv)) := by
  unfold flagStep
  split
  · rename_i hk
    exact Or.inl ⟨rfl, fun h => hk h.1⟩
  · rename_i hk
    rw [not_not] at hk
    split
    · rename_i hnum
      split
      · rename_i hcond
        exact Or.inr ⟨hk, hnum, hcond, rfl⟩
      · rename_i hcond
        exact Or.inl ⟨rfl, fun h => hcond h.2.2⟩
    · rename_i hnum
      exact Or.inl ⟨rfl, fun h => hnum h.2.1⟩

theorem flagStep_lookup (lineup : String → List RPlayer)
    (slots : List (String × SlotVal)) (k q : String) :
    ((flagStep lineup slots k).lookup q = slots.lookup q) ∨
    (slots.lookup q = some (SlotVal.num 0) ∧
      (flagStep lineup slots k).lookup q = some (SlotVal.starred 0)) := by
  rcases flagStep_cases lineup slots k with ⟨heq, _⟩ | ⟨hk, hnum, hcond, heq⟩
  · rw [heq]; exact Or.inl rfl
  · rw [heq, lookup_map_set]
    by_cases hq : q = k
    · rw [if_pos hq, hq, hnum]
      exact Or.inr ⟨rfl, rfl⟩
    · rw [if_neg hq]
      exact Or.inl rfl

theorem flag_fold_lookup (lineup : String → List RPlayer) :
    ∀ (K : List String) (slots : List (String × SlotVal)) (q : String),
      ((K.foldl (flagStep lineup) slots).lookup q = slots.lookup q) ∨
      (slots.lookup q = some (SlotVal.num 0) ∧
        (K.foldl (flagStep lineup) slots).lookup q
          = some (SlotVal.starred 0)) := by
  intro K
  induction K with
  | nil => intro slots q; exact Or.inl rfl
  | cons k ks ih =>
      intro slots q
      rw [List.foldl_cons]
      rcases flagStep_lookup lineup slots k q with h | ⟨hnum, hstar⟩
      · rcases ih (flagStep lineup slots k) q with h' | ⟨hnum', hstar'⟩
        · rw [h'] at *; exact Or.inl h
        · rw [h] at hnum'
          exact Or.inr ⟨hnum', hstar'⟩
      · rcases ih (flagStep lineup slots k) q with h' | ⟨hnum', hstar'⟩
        · rw [h'] at *; exact Or.inr ⟨hnum, hstar⟩
        · rw [hstar] at hnum'
          exact absurd hnum' (by simp)

theorem flag_fold_numval (lineup : String → List RPlayer)
    (K : List String) (slots : List (String × SlotVal)) (q : String) :
    ((K.foldl (flagStep lineup) slots).lookup q).map numValOf
      = (slots.lookup q).map numValOf := by
  rcases flag_fold_lookup lineup K slots q with h | ⟨hnum, hstar⟩
  · rw [h]
  · rw [hstar, hnum]
    rfl

theorem starCond_congr {slots slots' : List (String × SlotVal)}
    (h : ∀ q, (slots.lookup q).map numValOf = (slots'.lookup q).map numValOf)
    (lineup : String → List RPlayer) (pos : String) :
    starCond lineup slots pos = starCond lineup slots' pos := by
  unfold starCond
  apply any_congr
  intro player _
  apply any_congr
  intro q _
  have hq := h q
  cases h1 : slots.lookup q with
  | none =>
      rw [h1] at hq
      cases h2 : slots'.lookup q with
      | none => rfl
      | some v => rw [h2] at hq; exact absurd hq (by simp)
  | some v =>
      rw [h1] at hq
      cases h2 : slots'.lookup q with
      | none => rw [h2] at hq; exact absurd hq (by simp)
      | some v' =>
          rw [h2] at hq
          rw [Option.map_some', Option.map_some'] at hq
          have : numValOf v = numValOf v' := by
            injection hq
          simp [this]

theorem flag_fold_star_persists (lineup : String → List RPlayer)
    (K : List String) (slots : List (String × SlotVal)) (q : String)
    (h : slots.lookup q = some (SlotVal.starred 0)) :
    (K.foldl (flagStep lineup) slots).lookup q = some (SlotVal.starred 0) := by
  rcases flag_fold_lookup lineup K slots q with h' | ⟨hnum, hstar⟩
  · rw [h', h]
  · exact hstar

theorem flagStep_numval_all (lineup : String → List RPlayer)
    (slots : List (String × SlotVal)) (k : String) :
    ∀ q, ((flagStep lineup slots k).lookup q).map numValOf
      = (slots.lookup q).map numValOf := by
  intro q
  rcases flagStep_lookup lineup slots k q with h | ⟨hnum, hstar⟩
  · rw [h]
  · rw [hstar, hnum]
    rfl

theorem flag_fold_star (lineup : String → List RPlayer) :
    ∀ (K : List String) (slots : List (String × SlotVal)) (q : String),
      slots.lookup q ≠ some (SlotVal.starred 0) →
      ((K.foldl (flagStep lineup) slots).lookup q
          = some (SlotVal.starred 0) ↔
        (q ∈ K ∧ q ∈ positionOrder ∧
          slots.lookup q = some (SlotVal.num 0) ∧
          starCond lineup slots q = true)) := by
  intro K
  induction K with
  | nil =>
      intro slots q hq0
      constructor
      · intro h
        exact absurd h hq0
      · rintro ⟨h1, -⟩
        exact absurd h1 (List.not_mem_nil q)
  | cons k ks ih =>
      intro slots q hq0
      rw [List.foldl_cons]
      rcases flagStep_cases lineup slots k with ⟨heq, hnot⟩ | ⟨hkPO, hknum, hkcond, heq⟩
      · rw [heq]
        rw [ih slots q hq0]
        constructor
        · rintro ⟨h1, h2, h3, h4⟩
          exact ⟨List.mem_cons_of_mem k h1, h2, h3, h4⟩
        · rintro ⟨h1, h2, h3, h4⟩
          rcases List.mem_cons.mp h1 with rfl | h1'
          · exact absurd ⟨h2, h3, h4⟩ hnot
          · exact ⟨h1', h2, h3, h4⟩
      · by_cases hqk : q = k
        · subst hqk
          have hstar1 : (flagStep lineup slots q).lookup q
              = some (SlotVal.starred 0) := by
            rw [heq, lookup_map_set, if_pos rfl, hknum]
            rfl
          rw [flag_fold_star_persists lineup ks _ q hstar1]
          simp only [true_iff, iff_true]
          exact ⟨List.mem_cons_self _ _, hkPO, hknum, hkcond⟩
        · have hlook : (flagStep lineup slots k).lookup q = slots.lookup q := by
            rw [heq, lookup_map_set, if_neg hqk]
          rw [ih (flagStep lineup slots k) q (by rw [hlook]; exact hq0)]
          have hcond : starCond lineup (flagStep lineup slots k) q
              = starCond lineup slots q :=
            starCond_congr (flagStep_numval_all lineup slots k) lineup q
          rw [hlook, hcond]
          constructor
          · rintro ⟨h1, h2, h3, h4⟩
            exact ⟨List.mem_cons_of_mem k h1, h2, h3, h4⟩
          · rintro ⟨h1, h2, h3, h4⟩
            rcases List.mem_cons.mp h1 with rfl | h1'
            · exact absurd rfl hqk
            · exact ⟨h1', h2, h3, h4⟩

theorem unusedSpotsDay_eq (today day : Nat) (s : Settings)
    (active : List Player) (moves : List SimMove) :
    unusedSpotsDay today day s active moves =
      (s.map Prod.fst).foldl
        (flagStep (get_optimal_lineup (playersToday active moves day) s))
        (baseSlots today day s
          (get_optimal_lineup (playersToday active moves day) s)) := rfl

/-- C9.  Per evaluated day: a date strictly before today reports the fixed
`'-'` placeholder for every position; otherwise every position of
`position_order` reports a numeric open count of capacity minus filled, and
a position is flagged (value `"0*"`) exactly when it is a lineup key whose
open count is 0 and one of its assigned starters is also eligible for a
(standard-order) position whose open count is positive.  The last conjunct
is the concrete scenario: C (capacity 2) filled by two {C,D} players with D
(capacity 2) holding 1 of 2 reports a flagged 0 at C and a plain 1 at D. -/
theorem unused_spots_report (today day : Nat) (s : Settings)
    (active : List Player) (moves : List SimMove)
    (lineup : String → List RPlayer)
    (hlineup : lineup = get_optimal_lineup (playersToday active moves day) s) :
    (day < today → ∀ pos ∈ positionOrder,
      (unusedSpotsDay today day s active moves).lookup pos
        = some SlotVal.dash) ∧
    (¬ day < today → ∀ pos ∈ positionOrder,
      ∃ v, (unusedSpotsDay today day s active moves).lookup pos = some v ∧
        v ≠ SlotVal.dash ∧
        numValOf v = (capOf s pos : Int) - (lineup pos).length) ∧
    (¬ day < today → ∀ pos ∈ positionOrder,
      ((unusedSpotsDay today day s active moves).lookup pos
          = some (SlotVal.starred 0) ↔
        pos ∈ s.map Prod.fst ∧
        (capOf s pos : Int) - (lineup pos).length = 0 ∧
        ∃ player ∈ lineup pos, ∃ q ∈ player.positions,
          q ∈ positionOrder ∧
          0 < (capOf s q : Int) - (lineup q).length)) ∧
    (unusedSpotsDay 10 10 [("C", 2), ("D", 2)]
        [⟨1, some 1, ["C", "D"], [10]⟩, ⟨2, some 2, ["C", "D"], [10]⟩,
         ⟨3, some 3, ["D"], [10]⟩] []
      = [("C", SlotVal.starred 0), ("LW", SlotVal.num 0),
         ("RW", SlotVal.num 0), ("D", SlotVal.num 1), ("G", SlotVal.num 0)]) := by
  subst hlineup
  set L := get_optimal_lineup (playersToday active moves day) s with hL
  refine ⟨?_, ?_, ?_, by decide⟩
  · intro hday pos hpos
    rw [unusedSpotsDay_eq]
    have hbase : (baseSlots today day s L).lookup pos = some SlotVal.dash := by
      unfold baseSlots
      rw [if_pos hday]
      exact lookup_map_pair _ positionOrder pos hpos
    rcases flag_fold_lookup L (s.map Prod.fst) (baseSlots today day s L) pos
      with h | ⟨hnum, _⟩
    · rw [h, hbase]
    · rw [hbase] at hnum
      exact absurd hnum (by simp)
  · intro hday pos hpos
    rw [unusedSpotsDay_eq]
    have hbase : (baseSlots today day s L).lookup pos
        = some (SlotVal.num ((capOf s pos : Int) - (L pos).length)) := by
      unfold baseSlots
      rw [if_neg hday]
      exact lookup_map_pair _ positionOrder pos hpos
    rcases flag_fold_lookup L (s.map Prod.fst) (baseSlots today day s L) pos
      with h | ⟨hnum, hstar⟩
    · exact ⟨SlotVal.num ((capOf s pos : Int) - (L pos).length),
        by rw [h, hbase], by simp, rfl⟩
    · rw [hbase] at hnum
      have hz : (capOf s pos : Int) - (L pos).length = 0 := by
        injection hnum with hnum'
        injection hnum'
      exact ⟨SlotVal.starred 0, hstar, by simp, by rw [hz]; rfl⟩
  · intro hday pos hpos
    rw [unusedSpotsDay_eq]
    have hbase : (baseSlots today day s L).lookup pos
        = some (SlotVal.num ((capOf s pos : Int) - (L pos).length)) := by
      unfold baseSlots
      rw [if_neg hday]
      exact lookup_map_pair _ positionOrder pos hpos
    have hq0 : (baseSlots today day s L).lookup pos
        ≠ some (SlotVal.starred 0) := by
      rw [hbase]
      simp
    rw [flag_fold_star L (s.map Prod.fst) (baseSlots today day s L) pos hq0]
    have hnum0 : ((baseSlots today day s L).lookup pos
        = some (SlotVal.num 0)) ↔
        (capOf s pos : Int) - (L pos).length = 0 := by
      rw [hbase]
      constructor
      · intro h
        injection h with h'
        injection h'
      · intro h
        rw [h]
    have hcond : (starCond L (baseSlots today day s L) pos = true) ↔
        ∃ player ∈ L pos, ∃ q ∈ player.positions, q ∈ positionOrder ∧
          0 < (capOf s q : Int) - (L q).length := by
      unfold starCond
      rw [List.any_eq_true]
      constructor
      · rintro ⟨player, hplayer, hany⟩
        rw [List.any_eq_true] at hany
        obtain ⟨q, hqmem, hfq⟩ := hany
        by_cases hqPO : q ∈ positionOrder
        · refine ⟨player, hplayer, q, hqmem, hqPO, ?_⟩
          have hlq : (baseSlots today day s L).lookup q
              = some (SlotVal.num ((capOf s q : Int) - (L q).length)) := by
            unfold baseSlots
            rw [if_neg hday]
            exact lookup_map_pair _ positionOrder q hqPO
          rw [hlq] at hfq
          simpa [numValOf] using hfq
        · have hlq : (baseSlots today day s L).lookup q = none := by
            unfold baseSlots
            rw [if_neg hday]
            exact lookup_map_pair_none _ positionOrder q hqPO
          rw [hlq] at hfq
          exact absurd hfq (by simp)
      · rintro ⟨player, hplayer, q, hqmem, hqPO, hqopen⟩
        refine ⟨player, hplayer, ?_⟩
        rw [List.any_eq_true]
        refine ⟨q, hqmem, ?_⟩
        have hlq : (baseSlots today day s L).lookup q
            = some (SlotVal.num ((capOf s q : Int) - (L q).length)) := by
          unfold baseSlots
          rw [if_neg hday]
          exact lookup_map_pair _ positionOrder q hqPO
        rw [hlq]
        simpa [numValOf] using hqopen
    constructor
    · rintro ⟨h1, _, h3, h4⟩
      exact ⟨h1, hnum0.mp h3, hcond.mp h4⟩
    · rintro ⟨h1, h2, h3⟩
      exact ⟨h1, hpos, hnum0.mpr h2, hcond.mpr h3⟩

/-- C9 witness: a past day reports the placeholder at C; on the scenario
day, C's zero open count is flagged. -/
theorem unused_spots_report_witness :
    (unusedSpotsDay 10 9 [("C", 2), ("D", 2)]
        [⟨1, some 1, ["C", "D"], [10]⟩] []).lookup "C"
      = some SlotVal.dash ∧
    (unusedSpotsDay 10 10 [("C", 2), ("D", 2)]
        [⟨1, some 1, ["C", "D"], [10]⟩, ⟨2, some 2, ["C", "D"], [10]⟩,
         ⟨3, some 3, ["D"], [10]⟩] []).lookup "C"
      = some (SlotVal.starred 0) := by
  constructor
  · exact (unused_spots_report 10 9 [("C", 2), ("D", 2)]
      [⟨1, some 1, ["C", "D"], [10]⟩] [] _ rfl).1 (by decide) "C" (by decide)
  · exact ((unused_spots_report 10 10 [("C", 2), ("D", 2)]
      [⟨1, some 1, ["C", "D"], [10]⟩, ⟨2, some 2, ["C", "D"], [10]⟩,
       ⟨3, some 3, ["D"], [10]⟩] [] _ rfl).2.2.1 (by decide) "C"
      (by decide)).mpr (by decide)

end FantasyStreams
